import Mathlib

/-!
# Verification of the thestral2 core against its specification

This file gives a shallow embedding, in Lean 4, of the parts of the
thestral2 repository (Go) that the frozen claims are about, and proves or
refutes each claim.

Conventions of the embedding:
* Go byte slices become `List Nat` whose elements are intended to be < 256;
  where a claim needs that fact it appears as an explicit hypothesis.
* Go `uint32` arithmetic becomes `Nat` arithmetic with an explicit
  `% 4294967296` exactly where Go truncates (shifts).
* Go code that panics or returns an error is embedded as an `Option`
  (or a dedicated result type), `none`/error constructors marking the
  panic or error path.
* Loops become structural or well-founded recursion; the loop state is
  threaded explicitly.
-/

namespace Thestral

/-- 2^32, the modulus of Go `uint32` arithmetic. -/
def w32Mod : Nat := 4294967296

/-- `bitStr` from bin_radix_tree.go: an array of 32-bit words plus a bit
length.  Bits are numbered from the most significant bit of the first
word.  Go `[]uint32` becomes `List Nat` (elements intended `< 2^32`). -/
structure bitStr where
  Words : List Nat
  BitLen : Nat
deriving Repr, DecidableEq

/-- The zero value `bitStr{}` of Go. -/
def bitStr.empty : bitStr := ⟨[], 0⟩

/-- The tail-byte loop of `bitStrFromBytes`:
`for i := 1; i < nTailingBytes; i++ { lastWord |= b[...] << shift; shift >>= 1 }`
with `shift` starting at 16.  (Note the source halves `shift` each turn,
so the shifts used are 16, 8, 4, ... — see claim C1.) -/
def bitStrFromBytesTail (bytes : List Nat) (shift acc : Nat) : Nat :=
  match bytes with
  | [] => acc
  | x :: r => bitStrFromBytesTail r (shift >>> 1) (acc ||| (x <<< shift))

/-- `bitStrFromBytes` from bin_radix_tree.go, builds a `bitStr` from the
first `n` bits of a byte slice.  Out-of-range byte access (which would
panic in Go) is modelled as the byte 0. -/
def bitStrFromBytes (b : List Nat) (n : Nat) : bitStr :=
  if n = 0 then bitStr.empty
  else
    let nw := (n - 1) / 32 + 1
    let nFullWord := n / 32
    let fullWords := (List.range nFullWord).map (fun i =>
      ((b.getD (i * 4) 0) <<< 24) ||| ((b.getD (i * 4 + 1) 0) <<< 16) |||
      ((b.getD (i * 4 + 2) 0) <<< 8) ||| (b.getD (i * 4 + 3) 0))
    let nTailingBytes := (n - 1) / 8 + 1 - nFullWord * 4
    if nTailingBytes > 0 then
      let lastWord := bitStrFromBytesTail
        ((List.range (nTailingBytes - 1)).map
          (fun i => b.getD (nFullWord * 4 + 1 + i) 0))
        16 ((b.getD (nFullWord * 4) 0) <<< 24)
      ⟨fullWords ++ [lastWord], n⟩
    else
      ⟨fullWords, n⟩
  -- the unused slots of the preallocated word array are only present when
  -- nTailingBytes = 0 never happens for nw > nFullWord, so Words has
  -- exactly nw entries in both branches

/-- `bitStr.Bit` from bin_radix_tree.go:
`0x1 == ((w >> (32 - (i % 32) - 1)) & 0x1)`. -/
def bitStr.Bit (s : bitStr) (i : Nat) : Bool :=
  ((s.Words.getD (i / 32) 0) >>> (32 - i % 32 - 1)) &&& 1 = 1

/-- The word-assembly loop of `bitStr.Substr` for `shift ≠ 0`:
working from the last result word backwards,
`result[nw-i] = (curr << shift) | suffix; suffix = curr >> (32 - shift)`.
`cnt` counts the words still to produce (the Go loop variable is
`i = nw - cnt + 1 ... nw`). -/
def substrLoop (W : List Nat) (start shift : Nat) :
    Nat → Nat → List Nat → List Nat
  | 0, _, acc => acc
  | k + 1, suffix, acc =>
    let curr := W.getD (start + k) 0
    substrLoop W start shift k (curr >>> (32 - shift))
      ((((curr <<< shift) % w32Mod) ||| suffix) :: acc)

/-- `bitStr.Substr` from bin_radix_tree.go: the `n` bits of `s` starting
at bit `from`.  Word reads out of range (a panic in Go; never reached by
in-range callers) are modelled as 0. -/
def bitStr.Substr (s : bitStr) (start n : Nat) : bitStr :=
  if n = 0 then bitStr.empty
  else
    let nw := (n - 1) / 32 + 1
    let wstart := start / 32
    let shift := start % 32
    if shift = 0 then
      ⟨(List.range nw).map (fun j => s.Words.getD (wstart + j) 0), n⟩
    else
      let suffix0 :=
        if wstart + nw < s.Words.length then
          (s.Words.getD (wstart + nw) 0) >>> (32 - shift)
        else 0
      ⟨substrLoop s.Words wstart shift nw suffix0 [], n⟩

/-- The inner `for m != 0 { m >>= 1; l-- }` loop of `CommPfxLen`. -/
def shrinkLoop (m l : Nat) : Nat :=
  if m = 0 then l
  else shrinkLoop (m >>> 1) (l - 1)
decreasing_by
  simp only [Nat.shiftRight_one]
  exact Nat.div_lt_self (Nat.pos_of_ne_zero (by assumption)) (by omega)

/-- The word loop of `CommPfxLen`: scan `cnt` words from index `i`
accumulating `l += 32` per word; stop at the first differing word and
shrink `l` by the bit-length of the xor. -/
def cplLoop (sw ow : List Nat) : Nat → Nat → Nat → Nat
  | 0, _, l => l
  | cnt + 1, i, l =>
    let l := l + 32
    let m := (sw.getD i 0) ^^^ (ow.getD i 0)
    if m = 0 then cplLoop sw ow cnt (i + 1) l
    else shrinkLoop m l

/-- `bitStr.CommPfxLen` from bin_radix_tree.go: the length of the common
prefix of two bit strings, capped at the shorter bit length. -/
def bitStr.CommPfxLen (s o : bitStr) : Nat :=
  let n := min s.BitLen o.BitLen
  if n = 0 then 0
  else
    let nw := (n - 1) / 32 + 1
    let l := cplLoop s.Words o.Words nw 0 0
    if l > n then n else l

/-- Abstraction function: the sequence of the `BitLen` bits of a
`bitStr`, most significant bit of the first word first. -/
def bitStr.toBits (s : bitStr) : List Bool :=
  (List.range s.BitLen).map s.Bit

/-- Representation invariant inherited from Go `uint32`: every stored
word is below 2^32. -/
def bitStr.wordsWF (s : bitStr) : Prop :=
  ∀ w ∈ s.Words, w < w32Mod

instance (s : bitStr) : Decidable s.wordsWF := by
  unfold bitStr.wordsWF; infer_instance

/-! ## The binary radix trie (`brtNode`, bin_radix_tree.go)

A node holds, for each first-bit value, an edge label (`zPfx`/`oPfx`)
and an optional child (`zChild`/`oChild`), plus an optional payload
(`data`, Go `interface{}`, embedded with payload type `α`). -/

inductive brtNode (α : Type) : Type where
  | node (zPfx oPfx : bitStr) (zChild oChild : Option (brtNode α))
      (data : Option α) : brtNode α

namespace brtNode

variable {α : Type}

def zPfx : brtNode α → bitStr | node p _ _ _ _ => p
def oPfx : brtNode α → bitStr | node _ p _ _ _ => p
def zChild : brtNode α → Option (brtNode α) | node _ _ c _ _ => c
def oChild : brtNode α → Option (brtNode α) | node _ _ _ c _ => c
def data : brtNode α → Option α | node _ _ _ _ d => d

/-- The zero value `brtNode{}` of Go: the empty root. -/
def empty : brtNode α := node bitStr.empty bitStr.empty none none none

/-- `brtNode.FindPrefix` from bin_radix_tree.go.  The Go `for` loop over
`(n, str)` with the `lastHasData` tracker becomes structural recursion on
the node, `last` carrying the payload of the deepest ancestor with data.
Loop exits are embedded as:
* `str.BitLen = 0`: return the data of the node reached (not yet folded
  into `last`) if present, else `last`;
* divergence inside an edge (`CommPfxLen ≠ edge length`): return the
  current node payload if present else the recorded ancestor — both equal
  `last` after folding in the current node payload;
* a nil child: same as divergence (final `n` is nil, so only ancestors
  count). -/
def FindPrefixLoop : brtNode α → bitStr → Option α → Option α
  | node zP oP zC oC d, str, last =>
    if str.BitLen = 0 then
      match d with
      | some v => some v
      | none => last
    else
      let last := match d with
        | some v => some v
        | none => last
      if str.Bit 0 then
        let l := oP.BitLen
        if str.CommPfxLen oP ≠ l then last
        else
          match oC with
          | none => last
          | some c => FindPrefixLoop c (str.Substr l (str.BitLen - l)) last
      else
        let l := zP.BitLen
        if str.CommPfxLen zP ≠ l then last
        else
          match zC with
          | none => last
          | some c => FindPrefixLoop c (str.Substr l (str.BitLen - l)) last

def FindPrefix (n : brtNode α) (str : bitStr) : Option α :=
  FindPrefixLoop n str none

mutual

/-- `brtNode.Insert` from bin_radix_tree.go, on one branch of a node:
given the edge `pfx` and child of the branch selected by the first bit of
`str`, produce the updated `(edge, child)` pair, or `none` where Go
panics ("duplicated key found").  The cases:
* edge fully matched: move into the child with the rest of `str`
  (attaching a fresh leaf when the child is nil, panicking if nothing of
  `str` remains);
* divergence inside the edge: split the edge, the new intermediate node
  adopting the old child and (when bits of `str` remain) a fresh leaf,
  or (when none remain) the payload itself. -/
def InsertBranch : bitStr → bitStr → Option (brtNode α) → α →
    Option (bitStr × Option (brtNode α))
  | str, pfx, child, d =>
    let l := pfx.BitLen
    let cpl := pfx.CommPfxLen str
    if cpl = l then
      let str2 := str.Substr l (str.BitLen - l)
      match child with
      | none =>
        -- Go: prev, n = n, nil; the next loop turn panics when the key
        -- is exhausted, else hangs the new leaf on this branch
        if str2.BitLen = 0 then none
        else some (str2, some (node bitStr.empty bitStr.empty none none (some d)))
      | some c =>
        (InsertGo c str2 d).map (fun c2 => (pfx, some c2))
    else
      let newNodePfx := str.Substr cpl (str.BitLen - cpl)
      let newLeaf : brtNode α := node bitStr.empty bitStr.empty none none (some d)
      let newData : Option α := if newNodePfx.BitLen = 0 then some d else none
      let newParent : brtNode α :=
        if pfx.Bit cpl then
          node (if 0 < newNodePfx.BitLen then newNodePfx else bitStr.empty)
            (pfx.Substr cpl (l - cpl))
            (if 0 < newNodePfx.BitLen then some newLeaf else none)
            child newData
        else
          node (pfx.Substr cpl (l - cpl))
            (if 0 < newNodePfx.BitLen then newNodePfx else bitStr.empty)
            child
            (if 0 < newNodePfx.BitLen then some newLeaf else none)
            newData
      some (pfx.Substr 0 cpl, some newParent)

/-- `brtNode.Insert` from bin_radix_tree.go.  Returns the updated node,
or `none` where Go panics (`"duplicated key found"`). -/
def InsertGo : brtNode α → bitStr → α → Option (brtNode α)
  | node zP oP zC oC d0, str, d =>
    if str.BitLen = 0 then none
    else if str.Bit 0 then
      (InsertBranch str oP oC d).map (fun pc => node zP pc.1 zC pc.2 d0)
    else
      (InsertBranch str zP zC d).map (fun pc => node pc.1 oP pc.2 oC d0)

end

end brtNode

/-! ## Correctness of the `bitStr` word-level operations

The packed-word operations are related to the abstract view
`bitStr.toBits` (the bit sequence, most-significant bit first). -/

theorem bitStr.bit_eq_testBit (s : bitStr) (i : Nat) :
    s.Bit i = (s.Words.getD (i / 32) 0).testBit (31 - i % 32) := by
  have h : 32 - i % 32 - 1 = 31 - i % 32 := by omega
  simp only [bitStr.Bit, h, Nat.and_one_is_mod, Nat.testBit_to_div_mod,
    Nat.shiftRight_eq_div_pow]

theorem bitStr.toBits_length (s : bitStr) : s.toBits.length = s.BitLen := by
  simp [bitStr.toBits]

theorem bitStr.toBits_getElem (s : bitStr) (i : Nat) (h : i < s.BitLen) :
    getElem s.toBits i (by simpa [bitStr.toBits] using h) = s.Bit i := by
  simp [bitStr.toBits]

theorem bitStr.toBits_getD (s : bitStr) (i : Nat) (h : i < s.BitLen) :
    s.toBits.getD i false = s.Bit i := by
  rw [List.getD_eq_getElem _ _ (by simpa [bitStr.toBits] using h)]
  exact s.toBits_getElem i h

theorem w32Mod_eq : w32Mod = 2 ^ 32 := by norm_num [w32Mod]

theorem bitStr.wordsWF_getD {s : bitStr} (hs : s.wordsWF) (j : Nat) :
    s.Words.getD j 0 < w32Mod := by
  by_cases h : j < s.Words.length
  · rw [List.getD_eq_getElem _ _ h]
    exact hs _ (List.getElem_mem h)
  · rw [List.getD_eq_default _ _ (by omega)]
    simp [w32Mod]

/-- The suffix value threaded by the `Substr` loop when it is about to
produce result word `j - 1`: the word after it, shifted down. -/
def substrSuffix (W : List Nat) (wstart shift j : Nat) : Nat :=
  (W.getD (wstart + j) 0) >>> (32 - shift)

theorem substrLoop_eq (W : List Nat) (wstart shift : Nat) :
    ∀ (k : Nat) (acc : List Nat),
      substrLoop W wstart shift k (substrSuffix W wstart shift k) acc =
        ((List.range k).map (fun j =>
          (((W.getD (wstart + j) 0) <<< shift) % w32Mod) |||
            substrSuffix W wstart shift (j + 1))) ++ acc := by
  intro k
  induction k with
  | zero => intro acc; simp [substrLoop]
  | succ k ih =>
    intro acc
    rw [substrLoop]
    have hsfx : (W.getD (wstart + k) 0) >>> (32 - shift) =
        substrSuffix W wstart shift k := rfl
    rw [hsfx, ih]
    rw [List.range_succ, List.map_append, List.append_assoc]
    rfl

theorem bitStr.Substr_BitLen (s : bitStr) (start n : Nat) :
    (s.Substr start n).BitLen = n := by
  by_cases hn : n = 0
  · simp [bitStr.Substr, hn, bitStr.empty]
  · by_cases hs : start % 32 = 0 <;> simp [bitStr.Substr, hn, hs]

theorem bitStr.Substr_getWord (s : bitStr) (start n : Nat) (hn : n ≠ 0)
    (j : Nat) (hj : j < (n - 1) / 32 + 1) :
    (s.Substr start n).Words.getD j 0 =
      if start % 32 = 0 then s.Words.getD (start / 32 + j) 0
      else (((s.Words.getD (start / 32 + j) 0) <<< (start % 32)) % w32Mod) |||
        ((s.Words.getD (start / 32 + j + 1) 0) >>> (32 - start % 32)) := by
  by_cases hs : start % 32 = 0
  · simp only [bitStr.Substr, hn, if_neg hn, hs, if_pos rfl, reduceIte]
    rw [List.getD_eq_getElem _ _ (by simpa using hj)]
    simp
  · simp only [bitStr.Substr, hn, if_neg hn, if_neg hs]
    have hsfx :
        (if start / 32 + ((n - 1) / 32 + 1) < s.Words.length then
          (s.Words.getD (start / 32 + ((n - 1) / 32 + 1)) 0) >>> (32 - start % 32)
        else 0) = substrSuffix s.Words (start / 32) (start % 32) ((n - 1) / 32 + 1) := by
      by_cases hlt : start / 32 + ((n - 1) / 32 + 1) < s.Words.length
      · simp [hlt, substrSuffix]
      · rw [if_neg hlt]
        unfold substrSuffix
        rw [List.getD_eq_default _ _ (by omega)]
        simp
    rw [hsfx, substrLoop_eq]
    rw [List.getD_eq_getElem _ _ (by simpa using hj)]
    simp [substrSuffix, Nat.add_assoc]

theorem bitStr.Substr_wordsWF {s : bitStr} (hs : s.wordsWF) (start n : Nat) :
    (s.Substr start n).wordsWF := by
  by_cases hn : n = 0
  · simp [bitStr.Substr, hn, bitStr.empty, bitStr.wordsWF]
  intro w hw
  by_cases hsh : start % 32 = 0
  · simp only [bitStr.Substr, if_neg hn, hsh, reduceIte, List.mem_map,
      List.mem_range] at hw
    obtain ⟨j, _, rfl⟩ := hw
    exact bitStr.wordsWF_getD hs _
  · simp only [bitStr.Substr, if_neg hn, if_neg hsh] at hw
    rw [show (if start / 32 + ((n - 1) / 32 + 1) < s.Words.length then
          (s.Words.getD (start / 32 + ((n - 1) / 32 + 1)) 0) >>> (32 - start % 32)
        else 0) = substrSuffix s.Words (start / 32) (start % 32) ((n - 1) / 32 + 1) by
      by_cases hlt : start / 32 + ((n - 1) / 32 + 1) < s.Words.length
      · simp [hlt, substrSuffix]
      · rw [if_neg hlt]; unfold substrSuffix
        rw [List.getD_eq_default _ _ (by omega)]; simp] at hw
    rw [substrLoop_eq, List.append_nil, List.mem_map] at hw
    obtain ⟨j, _, rfl⟩ := hw
    rw [w32Mod_eq]
    apply Nat.or_lt_two_pow
    · rw [← w32Mod_eq]; exact Nat.mod_lt _ (by norm_num [w32Mod])
    · calc substrSuffix s.Words (start / 32) (start % 32) (j + 1)
          ≤ s.Words.getD (start / 32 + (j + 1)) 0 := by
            unfold substrSuffix
            rw [Nat.shiftRight_eq_div_pow]
            exact Nat.div_le_self _ _
        _ < 2 ^ 32 := by rw [← w32Mod_eq]; exact bitStr.wordsWF_getD hs _

/-- Core correctness of `Substr`: bit `i` of `s.Substr start n` is bit
`start + i` of `s`, for every `i < n`. -/
theorem bitStr.Substr_Bit {s : bitStr} (hs : s.wordsWF) (start n i : Nat)
    (hi : i < n) :
    (s.Substr start n).Bit i = s.Bit (start + i) := by
  rw [bitStr.bit_eq_testBit, bitStr.bit_eq_testBit]
  rw [bitStr.Substr_getWord s start n (by omega) (i / 32)
    (by
      have h : i / 32 ≤ (n - 1) / 32 := Nat.div_le_div_right (by omega)
      omega)]
  by_cases hsh : start % 32 = 0
  · rw [if_pos hsh]
    have h1 : (start + i) / 32 = start / 32 + i / 32 := by omega
    have h2 : (start + i) % 32 = i % 32 := by omega
    rw [h1, h2]
  · rw [if_neg hsh]
    rw [w32Mod_eq]
    simp only [Nat.testBit_lor, Nat.testBit_mod_two_pow, Nat.testBit_shiftLeft,
      Nat.testBit_shiftRight]
    have hp : i % 32 < 32 := Nat.mod_lt _ (by omega)
    have hd1 : (decide (31 - i % 32 < 32) : Bool) = true := by
      simp; omega
    rw [hd1, Bool.true_and]
    by_cases ht : start % 32 + i % 32 ≤ 31
    · -- the bit comes from the first (shifted-up) word
      have hd2 : (decide (start % 32 ≤ 31 - i % 32) : Bool) = true := by
        simp; omega
      rw [hd2, Bool.true_and]
      have hb : (s.Words.getD (start / 32 + i / 32 + 1) 0).testBit
          (32 - start % 32 + (31 - i % 32)) = false := by
        apply Nat.testBit_lt_two_pow
        calc s.Words.getD (start / 32 + i / 32 + 1) 0 < 2 ^ 32 := by
              rw [← w32Mod_eq]; exact bitStr.wordsWF_getD hs _
          _ ≤ 2 ^ (32 - start % 32 + (31 - i % 32)) := by
              apply Nat.pow_le_pow_right (by omega); omega
      rw [hb, Bool.or_false]
      have h1 : (start + i) / 32 = start / 32 + i / 32 := by omega
      have h2 : 31 - (start + i) % 32 = 31 - i % 32 - start % 32 := by omega
      rw [h1, h2]
    · -- the bit comes from the second (shifted-down) word
      have hd2 : (decide (start % 32 ≤ 31 - i % 32) : Bool) = false := by
        simp; omega
      rw [hd2, Bool.false_and, Bool.false_or]
      have h1 : (start + i) / 32 = start / 32 + i / 32 + 1 := by omega
      have h2 : 32 - start % 32 + (31 - i % 32) = 31 - (start + i) % 32 := by
        omega
      rw [h1, h2]

/-- `Substr` keeps the requested bit length and, within bounds, selects
exactly the requested bit range of the abstract bit sequence. -/
theorem bitStr.Substr_toBits {s : bitStr} (hs : s.wordsWF) (start n : Nat)
    (hb : start + n ≤ s.BitLen) :
    (s.Substr start n).toBits = (s.toBits.drop start).take n := by
  apply List.ext_getElem
  · simp [bitStr.toBits_length, bitStr.Substr_BitLen, bitStr.toBits]
    omega
  · intro i h1 h2
    have hi : i < n := by
      simpa [bitStr.toBits_length, bitStr.Substr_BitLen] using h1
    rw [List.getElem_take, List.getElem_drop]
    have h3 : start + i < s.BitLen := by omega
    rw [bitStr.toBits_getElem _ _ (by rw [bitStr.Substr_BitLen]; exact hi),
      bitStr.toBits_getElem _ _ h3]
    exact bitStr.Substr_Bit hs start n i hi

/-! ### Correctness of `CommPfxLen` -/

theorem size_div2 {m : Nat} (hm : m ≠ 0) :
    Nat.size (m / 2) = Nat.size m - 1 := by
  have hs1 : 1 ≤ Nat.size m := Nat.size_pos.mpr (by omega)
  have hub : m < 2 ^ Nat.size m := Nat.lt_size_self m
  have hlb : 2 ^ (Nat.size m - 1) ≤ m := Nat.lt_size.mp (by omega)
  rcases Nat.lt_or_ge 1 (Nat.size m) with h2 | h2
  · -- size ≥ 2
    have hub2 : m / 2 < 2 ^ (Nat.size m - 1) := by
      have : (2 : Nat) ^ Nat.size m = 2 * 2 ^ (Nat.size m - 1) := by
        rw [← pow_succ']
        congr 1
        omega
      omega
    have hlb2 : 2 ^ (Nat.size m - 2) ≤ m / 2 := by
      have : (2 : Nat) ^ (Nat.size m - 1) = 2 * 2 ^ (Nat.size m - 2) := by
        rw [← pow_succ']
        congr 1
        omega
      omega
    have h3 : Nat.size (m / 2) ≤ Nat.size m - 1 := Nat.size_le.mpr hub2
    have h4 : Nat.size m - 2 < Nat.size (m / 2) := Nat.lt_size.mpr hlb2
    omega
  · -- size = 1, so m = 1 and m / 2 = 0
    have hsz : Nat.size m = 1 := by omega
    rw [hsz] at hub
    have : m / 2 = 0 := by omega
    rw [this, Nat.size_zero, hsz]

theorem shrinkLoop_eq_size (m : Nat) : ∀ l, shrinkLoop m l = l - Nat.size m := by
  induction m using Nat.strong_induction_on with
  | _ m ih =>
    intro l
    rw [shrinkLoop]
    by_cases hm : m = 0
    · simp [hm, Nat.size_zero]
    · rw [if_neg hm]
      have hlt : m >>> 1 < m := by
        rw [Nat.shiftRight_one]
        exact Nat.div_lt_self (by omega) (by omega)
      rw [ih _ hlt, Nat.shiftRight_one, size_div2 hm]
      have : 1 ≤ Nat.size m := Nat.size_pos.mpr (by omega)
      omega

theorem cplLoop_succ (sw ow : List Nat) (cnt i l : Nat) :
    cplLoop sw ow (cnt + 1) i l =
      if (sw.getD i 0) ^^^ (ow.getD i 0) = 0 then cplLoop sw ow cnt (i + 1) (l + 32)
      else shrinkLoop ((sw.getD i 0) ^^^ (ow.getD i 0)) (l + 32) := rfl

theorem cplLoop_all_eq (sw ow : List Nat) :
    ∀ (cnt i l : Nat), (∀ j < cnt, sw.getD (i + j) 0 = ow.getD (i + j) 0) →
      cplLoop sw ow cnt i l = l + 32 * cnt := by
  intro cnt
  induction cnt with
  | zero => intro i l _; simp [cplLoop]
  | succ cnt ih =>
    intro i l hall
    rw [cplLoop_succ]
    have h0 : sw.getD i 0 = ow.getD i 0 := by
      have h := hall 0 (by omega)
      simpa using h
    rw [if_pos (by rw [h0, Nat.xor_self])]
    rw [ih (i + 1) (l + 32) (fun j hj => by
      have h := hall (j + 1) (by omega)
      have e : i + (j + 1) = i + 1 + j := by omega
      rw [e] at h
      exact h)]
    omega

theorem cplLoop_first_diff (sw ow : List Nat) :
    ∀ (cnt t i l : Nat), t < cnt →
      (∀ j < t, sw.getD (i + j) 0 = ow.getD (i + j) 0) →
      sw.getD (i + t) 0 ≠ ow.getD (i + t) 0 →
      cplLoop sw ow cnt i l =
        l + 32 * t + 32 - Nat.size ((sw.getD (i + t) 0) ^^^ (ow.getD (i + t) 0)) := by
  intro cnt
  induction cnt with
  | zero => omega
  | succ cnt ih =>
    intro t i l ht hpre hdiff
    rw [cplLoop_succ]
    match t with
    | 0 =>
      simp only [Nat.add_zero] at hdiff ⊢
      have hm : (sw.getD i 0) ^^^ (ow.getD i 0) ≠ 0 :=
        Nat.xor_ne_zero.mpr hdiff
      rw [if_neg hm, shrinkLoop_eq_size]
    | t' + 1 =>
      have h0 : sw.getD i 0 = ow.getD i 0 := by
        have h := hpre 0 (by omega)
        simpa using h
      rw [if_pos (by rw [h0, Nat.xor_self])]
      have e : i + (t' + 1) = i + 1 + t' := by omega
      rw [e] at hdiff
      rw [ih t' (i + 1) (l + 32) (by omega)
        (fun j hj => by
          have h := hpre (j + 1) (by omega)
          have e2 : i + (j + 1) = i + 1 + j := by omega
          rw [e2] at h
          exact h)
        hdiff]
      rw [e]
      omega

/-- The characterising property of a common-prefix length. -/
def cplChar (s o : bitStr) (r : Nat) : Prop :=
  r ≤ min s.BitLen o.BitLen ∧ (∀ i < r, s.Bit i = o.Bit i) ∧
    (r < min s.BitLen o.BitLen → s.Bit r ≠ o.Bit r)

theorem cplChar_unique {s o : bitStr} {r1 r2 : Nat}
    (h1 : cplChar s o r1) (h2 : cplChar s o r2) : r1 = r2 := by
  obtain ⟨hle1, heq1, hne1⟩ := h1
  obtain ⟨hle2, heq2, hne2⟩ := h2
  by_contra hne
  rcases Nat.lt_or_ge r1 r2 with h | h
  · exact hne1 (by omega) (heq2 r1 h)
  · exact hne2 (by omega) (heq1 r2 (by omega))

theorem testBit_xor_eq_false_iff {a b : Nat} (j : Nat) :
    (a ^^^ b).testBit j = false ↔ a.testBit j = b.testBit j := by
  rw [Nat.testBit_xor]
  cases a.testBit j <;> cases b.testBit j <;> simp

/-- `CommPfxLen` computes the length of the longest common prefix of the
two bit sequences (given well-formed 32-bit words). -/
theorem bitStr.CommPfxLen_char {s o : bitStr} (hs : s.wordsWF) (ho : o.wordsWF) :
    cplChar s o (s.CommPfxLen o) := by
  simp only [cplChar, bitStr.CommPfxLen]
  set n := min s.BitLen o.BitLen with hn
  by_cases hn0 : n = 0
  · rw [if_pos hn0]
    exact ⟨by omega, fun i hi => absurd hi (by omega), fun h => absurd h (by omega)⟩
  rw [if_neg hn0]
  set nw := (n - 1) / 32 + 1 with hnw
  -- bits below an agreeing word range agree
  have hbit : ∀ i : Nat, s.Words.getD (i / 32) 0 = o.Words.getD (i / 32) 0 →
      s.Bit i = o.Bit i := by
    intro i hw
    rw [bitStr.bit_eq_testBit, bitStr.bit_eq_testBit, hw]
  by_cases hall : ∀ j, j < nw → s.Words.getD j 0 = o.Words.getD j 0
  · rw [cplLoop_all_eq s.Words o.Words nw 0 0 (fun j hj => by
      simpa using hall j hj)]
    have hge : n ≤ 32 * nw := by omega
    have hres : (if 0 + 32 * nw > n then n else 0 + 32 * nw) = n := by
      by_cases hgt : 0 + 32 * nw > n
      · rw [if_pos hgt]
      · rw [if_neg hgt]; omega
    rw [hres]
    refine ⟨by omega, fun i hi => hbit i (hall (i / 32) (by omega)), by omega⟩
  · push_neg at hall
    have hex : ∃ j, j < nw ∧ s.Words.getD j 0 ≠ o.Words.getD j 0 := hall
    classical
    obtain ⟨htlt, htdiff⟩ := Nat.find_spec hex
    set t := Nat.find hex with htdef
    have htmin : ∀ j < t, s.Words.getD j 0 = o.Words.getD j 0 := by
      intro j hj
      have := Nat.find_min hex hj
      by_contra hne
      exact this ⟨by omega, hne⟩
    set m := (s.Words.getD t 0) ^^^ (o.Words.getD t 0) with hm
    have hm0 : m ≠ 0 := Nat.xor_ne_zero.mpr htdiff
    have hmlt : m < 2 ^ 32 := by
      apply Nat.xor_lt_two_pow <;> (rw [← w32Mod_eq]; exact bitStr.wordsWF_getD (by assumption) _)
    have hsz1 : 1 ≤ Nat.size m := Nat.size_pos.mpr (by omega)
    have hsz32 : Nat.size m ≤ 32 := Nat.size_le.mpr hmlt
    rw [cplLoop_first_diff s.Words o.Words nw t 0 0 htlt
      (fun j hj => by simpa using htmin j hj) (by simpa using htdiff)]
    simp only [Nat.zero_add]
    set sz := Nat.size m with hszdef
    set g := 32 * t + 32 - sz with hgdef
    -- bits strictly before the global divergence point agree
    have hpre : ∀ i, i < g → s.Bit i = o.Bit i := by
      intro i hi
      rcases Nat.lt_trichotomy (i / 32) t with h | h | h
      · exact hbit i (htmin _ h)
      · -- same word: the xor has only bits below position sz
        rw [bitStr.bit_eq_testBit, bitStr.bit_eq_testBit]
        rw [← testBit_xor_eq_false_iff, h, ← hm]
        apply Nat.testBit_lt_two_pow
        calc m < 2 ^ sz := Nat.lt_size_self m
          _ ≤ 2 ^ (31 - i % 32) := Nat.pow_le_pow_right (by omega) (by omega)
      · omega
    have hdiv : g < n → s.Bit g ≠ o.Bit g := by
      intro hgn
      have hgw : g / 32 = t := by omega
      have hgm : 31 - g % 32 = sz - 1 := by omega
      rw [bitStr.bit_eq_testBit, bitStr.bit_eq_testBit, hgw]
      intro heq
      have : m.testBit (31 - g % 32) = false := by
        rw [hm, Nat.testBit_xor, heq]
        simp
      rw [hgm] at this
      -- but the top bit of m is set
      have htop : m.testBit (sz - 1) = true := by
        rw [Nat.testBit_to_div_mod]
        have hdiv1 : m / 2 ^ (sz - 1) = 1 := by
          have hub : m < 2 ^ sz := Nat.lt_size_self m
          have hlb : 2 ^ (sz - 1) ≤ m := Nat.lt_size.mp (by omega)
          have h2 : (2 : Nat) ^ sz = 2 * 2 ^ (sz - 1) := by
            rw [← pow_succ']; congr 1; omega
          apply Nat.div_eq_of_lt_le <;> omega
        simp [hdiv1]
      rw [htop] at this
      simp at this
    by_cases hgt : g > n
    · rw [if_pos hgt]
      exact ⟨by omega, fun i hi => hpre i (by omega), by omega⟩
    · rw [if_neg hgt]
      exact ⟨by omega, hpre, hdiv⟩

theorem bitStr.CommPfxLen_comm {s o : bitStr} (hs : s.wordsWF) (ho : o.wordsWF) :
    s.CommPfxLen o = o.CommPfxLen s := by
  have h1 := bitStr.CommPfxLen_char hs ho
  have h2 := bitStr.CommPfxLen_char ho hs
  apply cplChar_unique h1
  obtain ⟨hle, heq, hne⟩ := h2
  exact ⟨by omega, fun i hi => (heq i hi).symm,
    fun h => fun hc => hne (by omega) hc.symm⟩

theorem bitStr.toBits_prefix_iff {s o : bitStr} :
    s.toBits <+: o.toBits ↔
      (s.BitLen ≤ o.BitLen ∧ ∀ i < s.BitLen, s.Bit i = o.Bit i) := by
  constructor
  · intro h
    have hlen : s.toBits.length ≤ o.toBits.length := h.length_le
    rw [bitStr.toBits_length, bitStr.toBits_length] at hlen
    refine ⟨hlen, fun i hi => ?_⟩
    have hg := h.getElem (show i < s.toBits.length by
      rw [bitStr.toBits_length]; exact hi)
    rw [bitStr.toBits_getElem _ _ hi] at hg
    rw [bitStr.toBits_getElem _ _ (by omega)] at hg
    exact hg
  · intro ⟨hle, heq⟩
    rw [List.prefix_iff_eq_take]
    apply List.ext_getElem
    · simp [bitStr.toBits_length]
      omega
    · intro i h1 h2
      rw [List.getElem_take]
      have hi : i < s.BitLen := by simpa [bitStr.toBits_length] using h1
      rw [bitStr.toBits_getElem _ _ hi, bitStr.toBits_getElem _ _ (by omega)]
      exact heq i hi

/-- `CommPfxLen` equals the length of the first operand exactly when the
first operand is a bit-prefix of the second. -/
theorem bitStr.CommPfxLen_eq_left_iff {s o : bitStr}
    (hs : s.wordsWF) (ho : o.wordsWF) :
    s.CommPfxLen o = s.BitLen ↔ s.toBits <+: o.toBits := by
  obtain ⟨hle, heq, hne⟩ := bitStr.CommPfxLen_char hs ho
  rw [bitStr.toBits_prefix_iff]
  constructor
  · intro h
    rw [h] at hle heq
    exact ⟨by omega, fun i hi => heq i hi⟩
  · intro ⟨hlen, hbits⟩
    by_contra hneq
    have hlt : s.CommPfxLen o < s.BitLen := by omega
    exact hne (by omega) (hbits _ hlt)

/-- The version for the argument order used by `FindPrefix`
(`str.CommPfxLen edge = edge.BitLen` iff the edge is a prefix of the
query). -/
theorem bitStr.CommPfxLen_eq_right_iff {s o : bitStr}
    (hs : s.wordsWF) (ho : o.wordsWF) :
    s.CommPfxLen o = o.BitLen ↔ o.toBits <+: s.toBits := by
  rw [bitStr.CommPfxLen_comm hs ho]
  exact bitStr.CommPfxLen_eq_left_iff ho hs

/-! ## Abstract contents of a trie and longest-prefix selection

`entries t` lists the (key, payload) pairs stored in a trie, a key being
the concatenation of the edge labels on the path from the root.  The
specification function `bestOf` picks a match of maximal key length
among the entries whose key is a prefix of the query. -/

namespace brtNode

variable {α : Type}

/-- The entry contributed by the payload of a node itself. -/
def dataEntries (d : Option α) : List (List Bool × α) :=
  match d with
  | some v => [(([] : List Bool), v)]
  | none => []

def entries : brtNode α → List (List Bool × α)
  | node zP oP zC oC d =>
    dataEntries d ++
    (match zC with
     | some c => (entries c).map (fun e => (zP.toBits ++ e.1, e.2))
     | none => []) ++
    (match oC with
     | some c => (entries c).map (fun e => (oP.toBits ++ e.1, e.2))
     | none => [])

/-- Height of a trie, used as the induction measure (the `induction`
tactic does not apply to this nested inductive directly). -/
def depth : brtNode α → Nat
  | node _ _ zC oC _ =>
    1 + max (match zC with | some c => depth c | none => 0)
            (match oC with | some c => depth c | none => 0)

theorem depth_zChild (zP oP : bitStr) (oC : Option (brtNode α))
    (d : Option α) (c : brtNode α) :
    depth c < depth (node zP oP (some c) oC d) := by
  have hd : depth (node zP oP (some c) oC d) =
      1 + max (depth c) (match oC with | some c2 => depth c2 | none => 0) := by
    conv_lhs => rw [depth.eq_def]
  rw [hd]
  have hle := Nat.le_max_left (depth c)
    (match oC with | some c2 => depth c2 | none => 0)
  omega

theorem depth_oChild (zP oP : bitStr) (zC : Option (brtNode α))
    (d : Option α) (c : brtNode α) :
    depth c < depth (node zP oP zC (some c) d) := by
  have hd : depth (node zP oP zC (some c) d) =
      1 + max (match zC with | some c2 => depth c2 | none => 0) (depth c) := by
    conv_lhs => rw [depth.eq_def]
  rw [hd]
  have hle := Nat.le_max_right
    (match zC with | some c2 => depth c2 | none => 0) (depth c)
  omega

/-- Structural well-formedness maintained by `InsertGo` (checked against
the Go invariants: an edge exists exactly when its child does, and the
edge of the bit-`b` child starts with bit `b`). -/
def WFNode : brtNode α → Prop
  | node zP oP zC oC _ =>
    (zC = none → zP.BitLen = 0) ∧ (oC = none → oP.BitLen = 0) ∧
    (∀ c, zC = some c →
      0 < zP.BitLen ∧ zP.Bit 0 = false ∧ zP.wordsWF ∧ WFNode c) ∧
    (∀ c, oC = some c →
      0 < oP.BitLen ∧ oP.Bit 0 = true ∧ oP.wordsWF ∧ WFNode c)

theorem WFNode_node (zP oP : bitStr) (zC oC : Option (brtNode α))
    (d : Option α) :
    WFNode (node zP oP zC oC d) ↔
      ((zC = none → zP.BitLen = 0) ∧ (oC = none → oP.BitLen = 0) ∧
       (∀ c, zC = some c →
         0 < zP.BitLen ∧ zP.Bit 0 = false ∧ zP.wordsWF ∧ WFNode c) ∧
       (∀ c, oC = some c →
         0 < oP.BitLen ∧ oP.Bit 0 = true ∧ oP.wordsWF ∧ WFNode c)) := by
  simp only [brtNode.WFNode]

theorem WFNode_empty : WFNode (empty : brtNode α) := by
  unfold empty WFNode
  refine ⟨fun _ => rfl, fun _ => rfl, ?_, ?_⟩ <;> intro c hc <;> simp at hc

end brtNode

/-- Keep the candidate with the longer key (ties keep the older one). -/
def pickLonger {α : Type} (a : Option (List Bool × α)) (e : List Bool × α) :
    Option (List Bool × α) :=
  match a with
  | none => some e
  | some a0 => if a0.1.length < e.1.length then some e else some a0

/-- The entries whose key is a prefix of the query. -/
def matchesQ {α : Type} (l : List (List Bool × α)) (q : List Bool) :
    List (List Bool × α) :=
  l.filter (fun e => decide (e.1 <+: q))

/-- A match of maximal key length among the entries, if any. -/
def bestOf {α : Type} (l : List (List Bool × α)) (q : List Bool) :
    Option (List Bool × α) :=
  (matchesQ l q).foldl pickLonger none

section bestOfLemmas

variable {α : Type}

theorem pickLonger_none (e : List Bool × α) :
    pickLonger (none : Option (List Bool × α)) e = some e := rfl

theorem pickLonger_some (a0 e : List Bool × α) :
    pickLonger (some a0) e =
      if a0.1.length < e.1.length then some e else some a0 := rfl

theorem matchesQ_append (l1 l2 : List (List Bool × α)) (q : List Bool) :
    matchesQ (l1 ++ l2) q = matchesQ l1 q ++ matchesQ l2 q := by
  simp [matchesQ]

theorem matchesQ_nil (q : List Bool) : matchesQ ([] : List (List Bool × α)) q = [] := rfl

theorem matchesQ_eq_nil {l : List (List Bool × α)} {q : List Bool}
    (h : ∀ e ∈ l, ¬ e.1 <+: q) : matchesQ l q = [] := by
  simp only [matchesQ, List.filter_eq_nil_iff]
  intro e he
  simpa using h e he

theorem bestOf_append (l1 l2 : List (List Bool × α)) (q : List Bool) :
    bestOf (l1 ++ l2) q = (matchesQ l2 q).foldl pickLonger (bestOf l1 q) := by
  rw [bestOf, matchesQ_append, List.foldl_append]
  rfl

theorem foldl_pickLonger_isSome (m : List (List Bool × α)) :
    ∀ (a : List Bool × α), (m.foldl pickLonger (some a)).isSome := by
  induction m with
  | nil => intro a; rfl
  | cons e m ih =>
    intro a
    rw [List.foldl_cons, pickLonger_some]
    by_cases h : a.1.length < e.1.length
    · rw [if_pos h]; exact ih e
    · rw [if_neg h]; exact ih a

theorem foldl_pickLonger_mem (m : List (List Bool × α)) :
    ∀ (acc : Option (List Bool × α)) (e : List Bool × α),
      m.foldl pickLonger acc = some e → acc = some e ∨ e ∈ m := by
  induction m with
  | nil => intro acc e h; exact Or.inl h
  | cons x m ih =>
    intro acc e h
    rw [List.foldl_cons] at h
    rcases ih _ _ h with hacc | hm
    · -- pickLonger acc x = some e
      match acc with
      | none =>
        rw [pickLonger_none] at hacc
        right
        rw [← Option.some_inj.mp hacc]
        exact List.mem_cons_self x m
      | some a0 =>
        rw [pickLonger_some] at hacc
        by_cases hlt : a0.1.length < x.1.length
        · rw [if_pos hlt] at hacc
          right
          rw [← Option.some_inj.mp hacc]
          exact List.mem_cons_self x m
        · rw [if_neg hlt] at hacc
          left
          rw [Option.some_inj.mp hacc]
    · right; exact List.mem_cons_of_mem _ hm

theorem foldl_pickLonger_max (m : List (List Bool × α)) :
    ∀ (acc : Option (List Bool × α)) (e : List Bool × α),
      m.foldl pickLonger acc = some e →
        (∀ x ∈ m, x.1.length ≤ e.1.length) ∧
        (∀ a0, acc = some a0 → a0.1.length ≤ e.1.length) := by
  induction m with
  | nil =>
    intro acc e h
    exact ⟨fun x hx => absurd hx (List.not_mem_nil x),
      fun a0 ha => by rw [ha] at h; rw [Option.some_inj.mp h]⟩
  | cons x m ih =>
    intro acc e h
    rw [List.foldl_cons] at h
    obtain ⟨hm, hacc2⟩ := ih _ _ h
    have hx : x.1.length ≤ e.1.length := by
      match acc with
      | none =>
        rw [pickLonger_none] at hacc2
        exact hacc2 x rfl
      | some a0 =>
        rw [pickLonger_some] at hacc2
        by_cases hlt : a0.1.length < x.1.length
        · rw [if_pos hlt] at hacc2
          exact hacc2 x rfl
        · rw [if_neg hlt] at hacc2
          have := hacc2 a0 rfl
          omega
    refine ⟨fun y hy => ?_, fun a0 ha => ?_⟩
    · rcases List.mem_cons.mp hy with rfl | hy2
      · exact hx
      · exact hm y hy2
    · rw [ha, pickLonger_some] at hacc2
      by_cases hlt : a0.1.length < x.1.length
      · rw [if_pos hlt] at hacc2
        have := hacc2 x rfl
        omega
      · rw [if_neg hlt] at hacc2
        exact hacc2 a0 rfl

theorem bestOf_spec {l : List (List Bool × α)} {q : List Bool}
    {e : List Bool × α} (h : bestOf l q = some e) :
    e ∈ l ∧ e.1 <+: q ∧ ∀ x ∈ l, x.1 <+: q → x.1.length ≤ e.1.length := by
  have hmem := foldl_pickLonger_mem _ _ _ h
  rcases hmem with hn | hm
  · exact absurd hn (by simp)
  · have he : e ∈ l ∧ e.1 <+: q := by
      have := List.mem_filter.mp hm
      exact ⟨this.1, by simpa using this.2⟩
    refine ⟨he.1, he.2, fun x hx hpfx => ?_⟩
    exact (foldl_pickLonger_max _ _ _ h).1 x
      (List.mem_filter.mpr ⟨hx, by simpa using hpfx⟩)

theorem bestOf_eq_none_iff {l : List (List Bool × α)} {q : List Bool} :
    bestOf l q = none ↔ matchesQ l q = [] := by
  constructor
  · intro h
    cases hm : matchesQ l q with
    | nil => rfl
    | cons x r =>
      rw [bestOf, hm, List.foldl_cons, pickLonger_none] at h
      have hsome := foldl_pickLonger_isSome r x
      rw [h] at hsome
      exact absurd hsome (by simp)
  · intro h
    rw [bestOf, h]
    rfl

end bestOfLemmas

section prefixHelpers

theorem bitStr.toBits_eq_nil_iff (s : bitStr) : s.toBits = [] ↔ s.BitLen = 0 := by
  rw [← List.length_eq_zero, bitStr.toBits_length]

theorem bitStr.toBits_head {s : bitStr} (h : 0 < s.BitLen) :
    getElem s.toBits 0 (by rw [bitStr.toBits_length]; exact h) = s.Bit 0 :=
  bitStr.toBits_getElem s 0 h

theorem prefix_head_eq {k q : List Bool} (h : k <+: q) (hk : 0 < k.length) :
    getElem k 0 hk = getElem q 0 (by have := h.length_le; omega) :=
  h.getElem hk

theorem prefix_append_drop_iff {p k q : List Bool} (hp : p <+: q) :
    (p ++ k <+: q) ↔ k <+: q.drop p.length := by
  obtain ⟨r, rfl⟩ := hp
  rw [List.drop_left]
  constructor
  · intro ⟨t, ht⟩
    rw [List.append_assoc] at ht
    exact ⟨t, List.append_cancel_left ht⟩
  · intro ⟨t, ht⟩
    exact ⟨t, by rw [List.append_assoc, ht]⟩

theorem prefix_of_append_left {p k q : List Bool} (h : p ++ k <+: q) :
    p <+: q :=
  (List.prefix_append p k).trans h

/-- Turn a child bestOf result into the node answer. -/
def payloadOr {α : Type} (r : Option (List Bool × α)) (last : Option α) :
    Option α :=
  match r with
  | some e => some e.2
  | none => last

theorem matchesQ_map_prepend {α : Type} (p : List Bool)
    (l : List (List Bool × α)) (q : List Bool) (hp : p <+: q) :
    matchesQ (l.map (fun e => (p ++ e.1, e.2))) q =
      (matchesQ l (q.drop p.length)).map (fun e => (p ++ e.1, e.2)) := by
  unfold matchesQ
  rw [List.filter_map]
  congr 1
  apply List.filter_congr
  intro e _
  simp only [Function.comp_apply]
  rw [decide_eq_decide]
  exact prefix_append_drop_iff hp

theorem foldl_pickLonger_map_prepend {α : Type} (p : List Bool)
    (m : List (List Bool × α)) :
    ∀ (a : Option (List Bool × α)),
      (m.map (fun e => (p ++ e.1, e.2))).foldl pickLonger
          (a.map (fun e => (p ++ e.1, e.2))) =
        (m.foldl pickLonger a).map (fun e => (p ++ e.1, e.2)) := by
  induction m with
  | nil => intro a; simp
  | cons x m ih =>
    intro a
    rw [List.map_cons, List.foldl_cons, List.foldl_cons]
    rw [show pickLonger (a.map (fun e => (p ++ e.1, e.2))) (p ++ x.1, x.2) =
        (pickLonger a x).map (fun e => (p ++ e.1, e.2)) from ?_]
    · exact ih _
    · match a with
      | none => rfl
      | some a0 =>
        show pickLonger (some (p ++ a0.1, a0.2)) (p ++ x.1, x.2) = _
        rw [pickLonger_some]
        simp only [List.length_append]
        by_cases hlt : a0.1.length < x.1.length
        · rw [if_pos (show p.length + a0.1.length < p.length + x.1.length by
            omega), pickLonger_some, if_pos hlt]
          rfl
        · rw [if_neg (show ¬ p.length + a0.1.length < p.length + x.1.length by
            omega), pickLonger_some, if_neg hlt]
          rfl

theorem bestOf_map_prepend {α : Type} (p : List Bool)
    (l : List (List Bool × α)) (q : List Bool) (hp : p <+: q) :
    bestOf (l.map (fun e => (p ++ e.1, e.2))) q =
      (bestOf l (q.drop p.length)).map (fun e => (p ++ e.1, e.2)) := by
  rw [bestOf, matchesQ_map_prepend p l q hp, bestOf]
  have h := foldl_pickLonger_map_prepend p (matchesQ l (q.drop p.length)) none
  simpa using h

/-- Folding the matches of the children over the `([], d)` entry of the
node itself: the child candidates always win (their keys are longer). -/
theorem foldl_pickLonger_over_root {α : Type} (d : α)
    (m : List (List Bool × α)) (hm : ∀ e ∈ m, 0 < e.1.length) :
    m.foldl pickLonger (some (([] : List Bool), d)) =
      match m.foldl pickLonger none with
      | some r => some r
      | none => some (([] : List Bool), d) := by
  induction m with
  | nil => rfl
  | cons x m ih =>
    rw [List.foldl_cons, List.foldl_cons, pickLonger_none, pickLonger_some]
    rw [if_pos (by simpa using hm x (List.mem_cons_self x m))]
    have hsome := foldl_pickLonger_isSome m x
    match hx : m.foldl pickLonger (some x) with
    | some r => rfl
    | none => rw [hx] at hsome; exact absurd hsome (by simp)

end prefixHelpers

/-! ### `FindPrefix` returns a longest matching entry -/

section findCorrect

variable {α : Type}

theorem bitStr.Substr_drop_toBits {q : bitStr} (hq : q.wordsWF) {l : Nat}
    (hl : l ≤ q.BitLen) :
    (q.Substr l (q.BitLen - l)).toBits = q.toBits.drop l := by
  rw [bitStr.Substr_toBits hq l (q.BitLen - l) (by omega)]
  apply List.take_of_length_le
  rw [List.length_drop, bitStr.toBits_length]

theorem bestOf_dataEntries (d : Option α) (qb : List Bool) :
    bestOf (brtNode.dataEntries d) qb = d.map (fun v => (([] : List Bool), v)) := by
  cases d with
  | none => rfl
  | some v =>
    show bestOf [(([] : List Bool), v)] qb = some ([], v)
    rw [bestOf, matchesQ]
    rw [List.filter_cons_of_pos (by simpa using List.nil_prefix)]
    rfl

theorem matchesQ_map_key_pos (c : brtNode α) (pfx : bitStr) (qb : List Bool)
    (hlen : 0 < pfx.BitLen) :
    ∀ e ∈ matchesQ ((c.entries).map (fun x => (pfx.toBits ++ x.1, x.2))) qb,
      0 < e.1.length := by
  intro e he
  have hmem : e ∈ (c.entries).map (fun x => (pfx.toBits ++ x.1, x.2)) :=
    (List.mem_filter.mp he).1
  obtain ⟨x, _, rfl⟩ := List.mem_map.mp hmem
  simp only [List.length_append, bitStr.toBits_length]
  omega

theorem matchesQ_pre_nil_head {c : brtNode α} {pfx : bitStr} {qb : List Bool}
    (hlen : 0 < pfx.BitLen) (hqb : 0 < qb.length)
    (hne : pfx.Bit 0 ≠ getElem qb 0 hqb) :
    matchesQ ((c.entries).map (fun x => (pfx.toBits ++ x.1, x.2))) qb = [] := by
  apply matchesQ_eq_nil
  intro e he hpfx
  obtain ⟨x, _, rfl⟩ := List.mem_map.mp he
  have hklen : 0 < (pfx.toBits ++ x.1).length := by
    simp only [List.length_append, bitStr.toBits_length]; omega
  have hhead := prefix_head_eq hpfx hklen
  rw [List.getElem_append_left (by rw [bitStr.toBits_length]; exact hlen)] at hhead
  rw [bitStr.toBits_head hlen] at hhead
  exact hne hhead

theorem matchesQ_pre_nil_empty {c : brtNode α} {pfx : bitStr}
    (hlen : 0 < pfx.BitLen) :
    matchesQ ((c.entries).map (fun x => (pfx.toBits ++ x.1, x.2)))
      ([] : List Bool) = [] := by
  apply matchesQ_eq_nil
  intro e he hpfx
  obtain ⟨x, _, rfl⟩ := List.mem_map.mp he
  have h1 : pfx.toBits ++ x.1 = [] := List.prefix_nil.mp hpfx
  have h2 := congrArg List.length h1
  simp only [List.length_append, bitStr.toBits_length, List.length_nil] at h2
  omega

theorem matchesQ_pre_nil_div {c : brtNode α} {pfx q : bitStr}
    (hq : q.wordsWF) (hp : pfx.wordsWF)
    (hdiv : q.CommPfxLen pfx ≠ pfx.BitLen) :
    matchesQ ((c.entries).map (fun x => (pfx.toBits ++ x.1, x.2)))
      q.toBits = [] := by
  apply matchesQ_eq_nil
  intro e he hpfx
  obtain ⟨x, _, rfl⟩ := List.mem_map.mp he
  exact hdiv ((bitStr.CommPfxLen_eq_right_iff hq hp).mpr
    (prefix_of_append_left hpfx))

theorem bestOf_mid_nil (D Z O : List (List Bool × α)) (qb : List Bool)
    (hZ : matchesQ Z qb = []) :
    bestOf (D ++ Z ++ O) qb =
      (matchesQ O qb).foldl pickLonger (bestOf D qb) := by
  rw [bestOf_append, bestOf_append, hZ]
  rfl

theorem bestOf_last_nil (D Z O : List (List Bool × α)) (qb : List Bool)
    (hO : matchesQ O qb = []) :
    bestOf (D ++ Z ++ O) qb =
      (matchesQ Z qb).foldl pickLonger (bestOf D qb) := by
  rw [bestOf_append, hO, List.foldl_nil, bestOf_append]

theorem depth_pos (n : brtNode α) : 0 < brtNode.depth n := by
  cases n with
  | node zP oP zC oC d =>
    have hd : brtNode.depth (brtNode.node zP oP zC oC d) =
        1 + max (match zC with | some c2 => brtNode.depth c2 | none => 0)
            (match oC with | some c2 => brtNode.depth c2 | none => 0) := by
      conv_lhs => rw [brtNode.depth.eq_def]
    omega

set_option maxHeartbeats 800000 in
/-- Unfolding equation of the lookup loop on a node (the definition is
compiled by well-founded recursion, so this is proven by cases). -/
theorem FindPrefixLoop_node (zP oP : bitStr) (zC oC : Option (brtNode α))
    (d : Option α) (q : bitStr) (last : Option α) :
    brtNode.FindPrefixLoop (brtNode.node zP oP zC oC d) q last =
      if q.BitLen = 0 then (match d with | some v => some v | none => last)
      else
        let last2 := match d with | some v => some v | none => last
        if q.Bit 0 then
          if q.CommPfxLen oP ≠ oP.BitLen then last2
          else match oC with
            | none => last2
            | some c =>
              brtNode.FindPrefixLoop c
                (q.Substr oP.BitLen (q.BitLen - oP.BitLen)) last2
        else
          if q.CommPfxLen zP ≠ zP.BitLen then last2
          else match zC with
            | none => last2
            | some c =>
              brtNode.FindPrefixLoop c
                (q.Substr zP.BitLen (q.BitLen - zP.BitLen)) last2 := by
  cases d <;> simp only [brtNode.FindPrefixLoop]

/-- Unfolding equation of `entries` on a node. -/
theorem entries_node (zP oP : bitStr) (zC oC : Option (brtNode α))
    (d : Option α) :
    brtNode.entries (brtNode.node zP oP zC oC d) =
      brtNode.dataEntries d ++
      (match zC with
       | some c => (c.entries).map (fun e => (zP.toBits ++ e.1, e.2))
       | none => []) ++
      (match oC with
       | some c => (c.entries).map (fun e => (oP.toBits ++ e.1, e.2))
       | none => []) := by
  cases zC <;> cases oC <;> simp [brtNode.entries]

/-- Main characterisation of the lookup loop: on a well-formed trie it
returns the payload of the longest entry key that prefixes the query,
falling back to the accumulator. -/
theorem FindPrefixLoop_eq_bestOf :
    ∀ (k : Nat) (n : brtNode α), brtNode.depth n ≤ k → brtNode.WFNode n →
      ∀ (q : bitStr) (last : Option α), q.wordsWF →
        brtNode.FindPrefixLoop n q last =
          payloadOr (bestOf (brtNode.entries n) q.toBits) last := by
  intro k
  induction k with
  | zero =>
    intro n hdep _ _ _ _
    exact absurd hdep (by have := depth_pos n; omega)
  | succ k ih =>
    intro n hdep hwf q last hqwf
    match n with
    | brtNode.node zP oP zC oC d =>
    rw [brtNode.WFNode_node] at hwf
    obtain ⟨hz0, ho0, hzs, hos⟩ := hwf
    have hdepz : ∀ c, zC = some c → brtNode.depth c ≤ k := by
      intro c hc
      subst hc
      have := brtNode.depth_zChild zP oP oC d c
      omega
    have hdepo : ∀ c, oC = some c → brtNode.depth c ≤ k := by
      intro c hc
      subst hc
      have := brtNode.depth_oChild zP oP zC d c
      omega
    clear hdep
    rw [FindPrefixLoop_node, entries_node]
    by_cases hq0 : q.BitLen = 0
    · -- empty query: only the node payload can match
      rw [if_pos hq0]
      have hqnil : q.toBits = [] := (bitStr.toBits_eq_nil_iff q).mpr hq0
      rw [hqnil]
      have hZ : matchesQ (match zC with
          | some c => (c.entries).map (fun e => (zP.toBits ++ e.1, e.2))
          | none => []) ([] : List Bool) = [] := by
        cases zC with
        | none => exact matchesQ_nil _
        | some c => exact matchesQ_pre_nil_empty (hzs c rfl).1
      have hO : matchesQ (match oC with
          | some c => (c.entries).map (fun e => (oP.toBits ++ e.1, e.2))
          | none => []) ([] : List Bool) = [] := by
        cases oC with
        | none => exact matchesQ_nil _
        | some c => exact matchesQ_pre_nil_empty (hos c rfl).1
      rw [bestOf_mid_nil _ _ _ _ hZ, hO, List.foldl_nil, bestOf_dataEntries]
      cases d with
      | some v => rfl
      | none => rfl
    · rw [if_neg hq0]
      have hqlen : 0 < q.toBits.length := by
        rw [bitStr.toBits_length]; omega
      have hq0b : getElem q.toBits 0 hqlen = q.Bit 0 := bitStr.toBits_head (by omega)
      by_cases hbit : q.Bit 0
      · -- descend the one-branch; the zero-branch cannot match
        rw [if_pos hbit]
        have hZ : matchesQ (match zC with
            | some c => (c.entries).map (fun e => (zP.toBits ++ e.1, e.2))
            | none => []) q.toBits = [] := by
          cases zC with
          | none => exact matchesQ_nil _
          | some c =>
            obtain ⟨hlen, hhead, hpwf, hcwf⟩ := hzs c rfl
            exact matchesQ_pre_nil_head hlen hqlen
              (by rw [hhead, hq0b, hbit]; simp)
        by_cases hcpl : q.CommPfxLen oP = oP.BitLen
        · rw [if_neg (by omega)]
          cases oC with
          | none =>
            rw [bestOf_mid_nil _ _ _ _ hZ, matchesQ_nil, List.foldl_nil,
              bestOf_dataEntries]
            cases d with
            | some v => rfl
            | none => rfl
          | some c =>
            obtain ⟨holen, hohead, hopwf, hocwf⟩ := hos c rfl
            simp only []
            have hpfx : oP.toBits <+: q.toBits :=
              (bitStr.CommPfxLen_eq_right_iff hqwf hopwf).mp hcpl
            have hl_le : oP.BitLen ≤ q.BitLen := by
              have := hpfx.length_le
              rwa [bitStr.toBits_length, bitStr.toBits_length] at this
            have hq2 : (q.Substr oP.BitLen (q.BitLen - oP.BitLen)).toBits =
                q.toBits.drop oP.BitLen := bitStr.Substr_drop_toBits hqwf hl_le
            have hq2wf : (q.Substr oP.BitLen (q.BitLen - oP.BitLen)).wordsWF :=
              bitStr.Substr_wordsWF hqwf _ _
            have hrec := ih c (hdepo c rfl) hocwf
              (q.Substr oP.BitLen (q.BitLen - oP.BitLen))
              (match d with | some v => some v | none => last) hq2wf
            rw [hrec, hq2]
            rw [bestOf_mid_nil _ _ _ _ hZ]
            have hkeypos := matchesQ_map_key_pos c oP q.toBits holen
            have hOmap : bestOf ((c.entries).map
                (fun e => (oP.toBits ++ e.1, e.2))) q.toBits =
                (bestOf (c.entries) (q.toBits.drop oP.toBits.length)).map
                  (fun e => (oP.toBits ++ e.1, e.2)) :=
              bestOf_map_prepend _ _ _ hpfx
            rw [bitStr.toBits_length] at hOmap
            cases d with
            | some v =>
              rw [bestOf_dataEntries]
              show payloadOr (bestOf (c.entries) (q.toBits.drop oP.BitLen))
                  (some v) =
                payloadOr ((matchesQ ((c.entries).map
                  (fun e => (oP.toBits ++ e.1, e.2))) q.toBits).foldl
                    pickLonger (some ([], v))) last
              rw [foldl_pickLonger_over_root v _ hkeypos]
              rw [show (matchesQ ((c.entries).map
                  (fun e => (oP.toBits ++ e.1, e.2))) q.toBits).foldl
                    pickLonger none =
                  bestOf ((c.entries).map
                    (fun e => (oP.toBits ++ e.1, e.2))) q.toBits from rfl]
              rw [hOmap]
              cases hbe : bestOf (c.entries) (q.toBits.drop oP.BitLen) with
              | some e => rfl
              | none => rfl
            | none =>
              rw [bestOf_dataEntries]
              show payloadOr (bestOf (c.entries) (q.toBits.drop oP.BitLen))
                  last =
                payloadOr ((matchesQ ((c.entries).map
                  (fun e => (oP.toBits ++ e.1, e.2))) q.toBits).foldl
                    pickLonger none) last
              rw [show (matchesQ ((c.entries).map
                  (fun e => (oP.toBits ++ e.1, e.2))) q.toBits).foldl
                    pickLonger none =
                  bestOf ((c.entries).map
                    (fun e => (oP.toBits ++ e.1, e.2))) q.toBits from rfl]
              rw [hOmap]
              cases hbe : bestOf (c.entries) (q.toBits.drop oP.BitLen) with
              | some e => rfl
              | none => rfl
        · -- divergence inside the one-edge: nothing below matches
          rw [if_pos (by omega)]
          have hO : matchesQ (match oC with
              | some c => (c.entries).map (fun e => (oP.toBits ++ e.1, e.2))
              | none => []) q.toBits = [] := by
            cases oC with
            | none => exact matchesQ_nil _
            | some c =>
              obtain ⟨holen, hohead, hopwf, hocwf⟩ := hos c rfl
              exact matchesQ_pre_nil_div hqwf hopwf hcpl
          rw [bestOf_mid_nil _ _ _ _ hZ, hO, List.foldl_nil, bestOf_dataEntries]
          cases d with
          | some v => rfl
          | none => rfl
      · -- descend the zero-branch; the one-branch cannot match
        rw [if_neg hbit]
        have hO : matchesQ (match oC with
            | some c => (c.entries).map (fun e => (oP.toBits ++ e.1, e.2))
            | none => []) q.toBits = [] := by
          cases oC with
          | none => exact matchesQ_nil _
          | some c =>
            obtain ⟨hlen, hhead, hpwf, hcwf⟩ := hos c rfl
            exact matchesQ_pre_nil_head hlen hqlen
              (by rw [hhead, hq0b]; simp [hbit])
        by_cases hcpl : q.CommPfxLen zP = zP.BitLen
        · rw [if_neg (by omega)]
          cases zC with
          | none =>
            rw [bestOf_last_nil _ _ _ _ hO, matchesQ_nil, List.foldl_nil,
              bestOf_dataEntries]
            cases d with
            | some v => rfl
            | none => rfl
          | some c =>
            obtain ⟨hzlen, hzhead, hzpwf, hzcwf⟩ := hzs c rfl
            simp only []
            have hpfx : zP.toBits <+: q.toBits :=
              (bitStr.CommPfxLen_eq_right_iff hqwf hzpwf).mp hcpl
            have hl_le : zP.BitLen ≤ q.BitLen := by
              have := hpfx.length_le
              rwa [bitStr.toBits_length, bitStr.toBits_length] at this
            have hq2 : (q.Substr zP.BitLen (q.BitLen - zP.BitLen)).toBits =
                q.toBits.drop zP.BitLen := bitStr.Substr_drop_toBits hqwf hl_le
            have hq2wf : (q.Substr zP.BitLen (q.BitLen - zP.BitLen)).wordsWF :=
              bitStr.Substr_wordsWF hqwf _ _
            have hrec := ih c (hdepz c rfl) hzcwf
              (q.Substr zP.BitLen (q.BitLen - zP.BitLen))
              (match d with | some v => some v | none => last) hq2wf
            rw [hrec, hq2]
            rw [bestOf_last_nil _ _ _ _ hO]
            have hkeypos := matchesQ_map_key_pos c zP q.toBits hzlen
            have hZmap : bestOf ((c.entries).map
                (fun e => (zP.toBits ++ e.1, e.2))) q.toBits =
                (bestOf (c.entries) (q.toBits.drop zP.toBits.length)).map
                  (fun e => (zP.toBits ++ e.1, e.2)) :=
              bestOf_map_prepend _ _ _ hpfx
            rw [bitStr.toBits_length] at hZmap
            cases d with
            | some v =>
              rw [bestOf_dataEntries]
              show payloadOr (bestOf (c.entries) (q.toBits.drop zP.BitLen))
                  (some v) =
                payloadOr ((matchesQ ((c.entries).map
                  (fun e => (zP.toBits ++ e.1, e.2))) q.toBits).foldl
                    pickLonger (some ([], v))) last
              rw [foldl_pickLonger_over_root v _ hkeypos]
              rw [show (matchesQ ((c.entries).map
                  (fun e => (zP.toBits ++ e.1, e.2))) q.toBits).foldl
                    pickLonger none =
                  bestOf ((c.entries).map
                    (fun e => (zP.toBits ++ e.1, e.2))) q.toBits from rfl]
              rw [hZmap]
              cases hbe : bestOf (c.entries) (q.toBits.drop zP.BitLen) with
              | some e => rfl
              | none => rfl
            | none =>
              rw [bestOf_dataEntries]
              show payloadOr (bestOf (c.entries) (q.toBits.drop zP.BitLen))
                  last =
                payloadOr ((matchesQ ((c.entries).map
                  (fun e => (zP.toBits ++ e.1, e.2))) q.toBits).foldl
                    pickLonger none) last
              rw [show (matchesQ ((c.entries).map
                  (fun e => (zP.toBits ++ e.1, e.2))) q.toBits).foldl
                    pickLonger none =
                  bestOf ((c.entries).map
                    (fun e => (zP.toBits ++ e.1, e.2))) q.toBits from rfl]
              rw [hZmap]
              cases hbe : bestOf (c.entries) (q.toBits.drop zP.BitLen) with
              | some e => rfl
              | none => rfl
        · rw [if_pos (by omega)]
          have hZ : matchesQ (match zC with
              | some c => (c.entries).map (fun e => (zP.toBits ++ e.1, e.2))
              | none => []) q.toBits = [] := by
            cases zC with
            | none => exact matchesQ_nil _
            | some c =>
              obtain ⟨hzlen, hzhead, hzpwf, hzcwf⟩ := hzs c rfl
              exact matchesQ_pre_nil_div hqwf hzpwf hcpl
          rw [bestOf_mid_nil _ _ _ _ hZ, hO, List.foldl_nil, bestOf_dataEntries]
          cases d with
          | some v => rfl
          | none => rfl

end findCorrect

/-! ### `Insert` adds exactly one entry (or panics on a duplicate path) -/

section insertCorrect

variable {α : Type}

/-- The keys of an entry list. -/
def keysOf (l : List (List Bool × α)) : List (List Bool) := l.map Prod.fst

/-- The entries contributed by one branch of a node. -/
def branchEntries (pfx : bitStr) : Option (brtNode α) → List (List Bool × α)
  | some c => (c.entries).map (fun e => (pfx.toBits ++ e.1, e.2))
  | none => []

/-- The invariant of one branch, `b` being its bit. -/
def WFBranch (b : Bool) (pfx : bitStr) : Option (brtNode α) → Prop
  | none => pfx.BitLen = 0
  | some c => 0 < pfx.BitLen ∧ pfx.Bit 0 = b ∧ pfx.wordsWF ∧ brtNode.WFNode c

theorem WFNode_iff_branches (zP oP : bitStr) (zC oC : Option (brtNode α))
    (d : Option α) :
    brtNode.WFNode (brtNode.node zP oP zC oC d) ↔
      WFBranch false zP zC ∧ WFBranch true oP oC := by
  rw [brtNode.WFNode_node]
  cases zC <;> cases oC <;>
    simp [WFBranch] <;> constructor <;> intro h <;> simp_all

theorem entries_node_b (zP oP : bitStr) (zC oC : Option (brtNode α))
    (d : Option α) :
    brtNode.entries (brtNode.node zP oP zC oC d) =
      brtNode.dataEntries d ++ branchEntries zP zC ++ branchEntries oP oC := by
  rw [entries_node]
  cases zC <;> cases oC <;> rfl

theorem bitStr.CommPfxLen_zero_left (s o : bitStr) (h : s.BitLen = 0) :
    s.CommPfxLen o = 0 := by
  simp [bitStr.CommPfxLen, h]

theorem WFNode_leaf (d : α) :
    brtNode.WFNode (brtNode.node bitStr.empty bitStr.empty none none (some d)) := by
  rw [brtNode.WFNode_node]
  refine ⟨fun _ => rfl, fun _ => rfl, ?_, ?_⟩ <;> intro c hc <;> simp at hc

theorem entries_leaf (d : α) :
    brtNode.entries (brtNode.node bitStr.empty bitStr.empty none none (some d)) =
      [(([] : List Bool), d)] := by
  rw [entries_node]
  rfl

/-- Keys living under a branch start with the branch edge, hence with the
branch bit; a key with the other first bit cannot be among them. -/
theorem not_mem_keys_branch {b : Bool} {pfx : bitStr}
    {child : Option (brtNode α)} (hwb : WFBranch b pfx child)
    {str : bitStr} (hslen : 0 < str.BitLen) (hsb : str.Bit 0 ≠ b) :
    str.toBits ∉ keysOf (branchEntries pfx child) := by
  cases child with
  | none => simp [branchEntries, keysOf]
  | some c =>
    obtain ⟨hplen, hphead, hpwf, _⟩ := hwb
    intro hmem
    simp only [keysOf, branchEntries, List.map_map, List.mem_map,
      Function.comp_apply] at hmem
    obtain ⟨e, _, heq⟩ := hmem
    have h0 := List.getElem_of_eq heq (show 0 < (pfx.toBits ++ e.1).length by
      simp only [List.length_append, bitStr.toBits_length]; omega)
    rw [List.getElem_append_left (by rw [bitStr.toBits_length]; exact hplen),
      bitStr.toBits_head hplen] at h0
    rw [show getElem str.toBits 0 (heq ▸ (show 0 < (pfx.toBits ++ e.1).length by
      simp only [List.length_append, bitStr.toBits_length]; omega)) =
        str.Bit 0 from bitStr.toBits_getElem str 0 (by omega)] at h0
    rw [hphead] at h0
    exact hsb h0.symm

/-- A key strictly below a fully-matched edge decomposes through it. -/
theorem prefix_append_drop {p s : List Bool} (hp : p <+: s) :
    p ++ s.drop p.length = s := by
  obtain ⟨r, rfl⟩ := hp
  rw [List.drop_left]

/-- Specification of `InsertBranch`, parameterised by the induction
hypothesis for `InsertGo` on the children. -/
theorem InsertBranch_spec (k : Nat)
    (ih : ∀ (n : brtNode α), brtNode.depth n ≤ k → brtNode.WFNode n →
      ∀ (str : bitStr) (d : α), str.wordsWF →
        ∀ t, brtNode.InsertGo n str d = some t →
          brtNode.WFNode t ∧
          (brtNode.entries t).Perm ((str.toBits, d) :: brtNode.entries n) ∧
          str.toBits ∉ keysOf (brtNode.entries n))
    (b : Bool) (pfx : bitStr) (child : Option (brtNode α))
    (hwb : WFBranch b pfx child)
    (hdepc : ∀ c, child = some c → brtNode.depth c ≤ k)
    (str : bitStr) (d : α) (hswf : str.wordsWF) (hslen : 0 < str.BitLen)
    (hsb : str.Bit 0 = b)
    (pfx2 : bitStr) (child2 : Option (brtNode α))
    (hins : brtNode.InsertBranch str pfx child d = some (pfx2, child2)) :
    WFBranch b pfx2 child2 ∧
    (branchEntries pfx2 child2).Perm
      ((str.toBits, d) :: branchEntries pfx child) ∧
    str.toBits ∉ keysOf (branchEntries pfx child) := by
  rw [brtNode.InsertBranch.eq_1] at hins
  cases child with
  | none =>
    -- nil child: the edge is empty, hang the whole rest of the key here
    have hl0 : pfx.BitLen = 0 := hwb
    have hcpl0 : pfx.CommPfxLen str = 0 := bitStr.CommPfxLen_zero_left pfx str hl0
    rw [if_pos (by omega)] at hins
    simp only [] at hins
    have hlen2 : (str.Substr pfx.BitLen (str.BitLen - pfx.BitLen)).BitLen =
        str.BitLen - pfx.BitLen := bitStr.Substr_BitLen _ _ _
    rw [if_neg (by omega)] at hins
    obtain ⟨h1, h2⟩ := Prod.mk.injEq .. ▸ Option.some_inj.mp hins
    subst h1
    subst h2
    have hbits : (str.Substr pfx.BitLen (str.BitLen - pfx.BitLen)).toBits =
        str.toBits := by
      rw [hl0, bitStr.Substr_drop_toBits hswf (by omega), List.drop_zero]
    refine ⟨⟨by omega, ?_, bitStr.Substr_wordsWF hswf _ _, WFNode_leaf d⟩, ?_, ?_⟩
    · rw [bitStr.Substr_Bit hswf _ _ 0 (by omega), hl0, Nat.add_zero]
      exact hsb
    · show (branchEntries _ (some _)).Perm _
      rw [branchEntries, entries_leaf]
      simp only [List.map_cons, List.map_nil, List.append_nil]
      rw [hbits]
      exact List.Perm.refl _
    · simp [branchEntries, keysOf]
  | some c =>
    obtain ⟨hplen, hphead, hpwf, hcwf⟩ := hwb
    obtain ⟨hble, hbits, hdiffb⟩ := bitStr.CommPfxLen_char hpwf hswf
    by_cases hcpl : pfx.CommPfxLen str = pfx.BitLen
    · -- the edge fully matches: descend into the child
      rw [if_pos hcpl] at hins
      simp only [Option.map_eq_some'] at hins
      obtain ⟨c2, hc2, hpair⟩ := hins
      obtain ⟨h1, h2⟩ := Prod.mk.injEq .. ▸ hpair
      subst h1
      subst h2
      have hl_le : pfx.BitLen ≤ str.BitLen := by omega
      have hpfx : pfx.toBits <+: str.toBits :=
        (bitStr.CommPfxLen_eq_left_iff hpwf hswf).mp hcpl
      have hdrop : (str.Substr pfx.BitLen (str.BitLen - pfx.BitLen)).toBits =
          str.toBits.drop pfx.BitLen := bitStr.Substr_drop_toBits hswf hl_le
      obtain ⟨hwfc2, hperm2, hfresh2⟩ := ih c (hdepc c rfl) hcwf _ d
        (bitStr.Substr_wordsWF hswf _ _) c2 hc2
      have hglue : pfx.toBits ++ str.toBits.drop pfx.BitLen = str.toBits := by
        have := prefix_append_drop hpfx
        rwa [bitStr.toBits_length] at this
      refine ⟨⟨hplen, hphead, hpwf, hwfc2⟩, ?_, ?_⟩
      · show (branchEntries pfx (some c2)).Perm _
        rw [branchEntries, branchEntries]
        have hstep := hperm2.map (fun e => (pfx.toBits ++ e.1, e.2))
        rw [List.map_cons, hdrop, hglue] at hstep
        exact hstep
      · intro hmem
        simp only [keysOf, branchEntries, List.map_map, List.mem_map] at hmem
        obtain ⟨e, hememb, heq⟩ := hmem
        apply hfresh2
        have hkey : e.1 = (str.Substr pfx.BitLen (str.BitLen - pfx.BitLen)).toBits := by
          rw [hdrop]
          have hx : pfx.toBits ++ e.1 =
              pfx.toBits ++ str.toBits.drop pfx.BitLen := by
            rw [hglue]
            exact heq
          exact List.append_cancel_left hx
        rw [keysOf, List.mem_map]
        exact ⟨e, hememb, hkey⟩
    · -- divergence inside the edge: split it
      rw [if_neg hcpl] at hins
      simp only [] at hins
      set cpl := pfx.CommPfxLen str with hcpldef
      have hcpllt : cpl < pfx.BitLen := by omega
      have hcplmin : cpl ≤ str.BitLen := by omega
      have hcpl1 : 0 < cpl := by
        by_contra h0
        apply hdiffb (by omega)
        have hc0 : cpl = 0 := by omega
        rw [hc0, hphead, hsb]
      -- abstract views of the three pieces of the split
      have hp2len : (pfx.Substr 0 cpl).BitLen = cpl := bitStr.Substr_BitLen _ _ _
      have hp2wf : (pfx.Substr 0 cpl).wordsWF := bitStr.Substr_wordsWF hpwf _ _
      have hp2bit : (pfx.Substr 0 cpl).Bit 0 = pfx.Bit 0 := by
        have h := bitStr.Substr_Bit hpwf 0 cpl 0 (by omega)
        rwa [Nat.add_zero] at h
      have hp2bits : (pfx.Substr 0 cpl).toBits = pfx.toBits.take cpl := by
        rw [bitStr.Substr_toBits hpwf 0 cpl (by omega), List.drop_zero]
      have htailLen : (pfx.Substr cpl (pfx.BitLen - cpl)).BitLen =
          pfx.BitLen - cpl := bitStr.Substr_BitLen _ _ _
      have htailwf : (pfx.Substr cpl (pfx.BitLen - cpl)).wordsWF :=
        bitStr.Substr_wordsWF hpwf _ _
      have htailbit : (pfx.Substr cpl (pfx.BitLen - cpl)).Bit 0 = pfx.Bit cpl := by
        have h := bitStr.Substr_Bit hpwf cpl (pfx.BitLen - cpl) 0 (by omega)
        rwa [Nat.add_zero] at h
      have htailbits : (pfx.Substr cpl (pfx.BitLen - cpl)).toBits =
          pfx.toBits.drop cpl := bitStr.Substr_drop_toBits hpwf (by omega)
      have hnnpLen : (str.Substr cpl (str.BitLen - cpl)).BitLen =
          str.BitLen - cpl := bitStr.Substr_BitLen _ _ _
      have hnnpwf : (str.Substr cpl (str.BitLen - cpl)).wordsWF :=
        bitStr.Substr_wordsWF hswf _ _
      have hnnpbits : (str.Substr cpl (str.BitLen - cpl)).toBits =
          str.toBits.drop cpl := bitStr.Substr_drop_toBits hswf (by omega)
      have htake : pfx.toBits.take cpl = str.toBits.take cpl := by
        apply List.ext_getElem
        · simp only [List.length_take, bitStr.toBits_length]
          omega
        · intro i hi1 hi2
          have hic : i < cpl := by
            simp only [List.length_take, bitStr.toBits_length] at hi1
            omega
          rw [List.getElem_take, List.getElem_take]
          rw [bitStr.toBits_getElem _ _ (by omega),
            bitStr.toBits_getElem _ _ (by omega)]
          exact hbits i hic
      have hfresh : str.toBits ∉ keysOf (branchEntries pfx (some c)) := by
        intro hmem
        simp only [keysOf, branchEntries, List.map_map, List.mem_map,
          Function.comp_apply] at hmem
        obtain ⟨e, _, heq⟩ := hmem
        exact hcpl ((bitStr.CommPfxLen_eq_left_iff hpwf hswf).mpr ⟨e.1, heq⟩)
      have hcomp : (fun e => ((pfx.Substr 0 cpl).toBits ++ e.1, e.2)) ∘
          (fun e : List Bool × α =>
            ((pfx.Substr cpl (pfx.BitLen - cpl)).toBits ++ e.1, e.2)) =
          (fun e : List Bool × α => (pfx.toBits ++ e.1, e.2)) := by
        funext e
        simp only [Function.comp_apply, hp2bits, htailbits,
          ← List.append_assoc, List.take_append_drop]
      by_cases hnb : 0 < (str.Substr cpl (str.BitLen - cpl)).BitLen
      · -- part of the key remains: it becomes a fresh leaf under the split
        have hne := hdiffb (by omega)
        simp only [if_pos hnb,
          if_neg (show ¬ (str.Substr cpl (str.BitLen - cpl)).BitLen = 0
            by omega)] at hins
        have hnnpbit : (str.Substr cpl (str.BitLen - cpl)).Bit 0 = str.Bit cpl := by
          have h := bitStr.Substr_Bit hswf cpl (str.BitLen - cpl) 0 (by omega)
          rwa [Nat.add_zero] at h
        have hglue : (pfx.Substr 0 cpl).toBits ++
            (str.Substr cpl (str.BitLen - cpl)).toBits = str.toBits := by
          rw [hp2bits, hnnpbits, htake]
          exact List.take_append_drop _ _
        by_cases hpb : pfx.Bit cpl
        · rw [if_pos hpb] at hins
          have hsc : str.Bit cpl = false := by
            cases hx : str.Bit cpl with
            | false => rfl
            | true => exact absurd (hpb.trans hx.symm) hne
          obtain ⟨h1, h2⟩ := Prod.mk.injEq .. ▸ Option.some_inj.mp hins
          subst h1
          subst h2
          refine ⟨⟨by omega, by rw [hp2bit, hphead], hp2wf, ?_⟩, ?_, hfresh⟩
          · rw [WFNode_iff_branches]
            exact ⟨⟨hnb, by rw [hnnpbit, hsc], hnnpwf, WFNode_leaf d⟩,
              ⟨by omega, by rw [htailbit, hpb], htailwf, hcwf⟩⟩
          · simp only [branchEntries, entries_node_b, entries_leaf,
              brtNode.dataEntries, List.map_cons, List.map_nil,
              List.nil_append, List.append_nil, List.map_append,
              List.map_map, hcomp]
            rw [hglue]
            exact List.Perm.refl _
        · rw [if_neg hpb] at hins
          have hpc : pfx.Bit cpl = false := by
            cases hx : pfx.Bit cpl with
            | false => rfl
            | true => exact absurd hx hpb
          have hsc : str.Bit cpl = true := by
            cases hx : str.Bit cpl with
            | true => rfl
            | false => exact absurd (hpc.trans hx.symm) hne
          obtain ⟨h1, h2⟩ := Prod.mk.injEq .. ▸ Option.some_inj.mp hins
          subst h1
          subst h2
          refine ⟨⟨by omega, by rw [hp2bit, hphead], hp2wf, ?_⟩, ?_, hfresh⟩
          · rw [WFNode_iff_branches]
            exact ⟨⟨by omega, by rw [htailbit, hpc], htailwf, hcwf⟩,
              ⟨hnb, by rw [hnnpbit, hsc], hnnpwf, WFNode_leaf d⟩⟩
          · simp only [branchEntries, entries_node_b, entries_leaf,
              brtNode.dataEntries, List.map_cons, List.map_nil,
              List.nil_append, List.append_nil, List.map_append,
              List.map_map, hcomp]
            rw [hglue]
            exact List.perm_append_singleton _ _
      · -- the key ends exactly at the split point: it becomes the payload
        -- of the new intermediate node
        have hcpleq : cpl = str.BitLen := by omega
        simp only [if_neg hnb,
          if_pos (show (str.Substr cpl (str.BitLen - cpl)).BitLen = 0
            by omega)] at hins
        have hp2str : (pfx.Substr 0 cpl).toBits = str.toBits := by
          rw [hp2bits, htake, hcpleq]
          exact List.take_of_length_le (by rw [bitStr.toBits_length])
        by_cases hpb : pfx.Bit cpl
        · rw [if_pos hpb] at hins
          obtain ⟨h1, h2⟩ := Prod.mk.injEq .. ▸ Option.some_inj.mp hins
          subst h1
          subst h2
          refine ⟨⟨by omega, by rw [hp2bit, hphead], hp2wf, ?_⟩, ?_, hfresh⟩
          · rw [WFNode_iff_branches]
            exact ⟨rfl, ⟨by omega, by rw [htailbit, hpb], htailwf, hcwf⟩⟩
          · simp only [branchEntries, entries_node_b, brtNode.dataEntries,
              List.map_cons, List.map_nil, List.cons_append, List.nil_append,
              List.append_nil, List.map_append, List.map_map, hcomp]
            rw [hp2str]
        · rw [if_neg hpb] at hins
          have hpc : pfx.Bit cpl = false := by
            cases hx : pfx.Bit cpl with
            | false => rfl
            | true => exact absurd hx hpb
          obtain ⟨h1, h2⟩ := Prod.mk.injEq .. ▸ Option.some_inj.mp hins
          subst h1
          subst h2
          refine ⟨⟨by omega, by rw [hp2bit, hphead], hp2wf, ?_⟩, ?_, hfresh⟩
          · rw [WFNode_iff_branches]
            exact ⟨⟨by omega, by rw [htailbit, hpc], htailwf, hcwf⟩, rfl⟩
          · simp only [branchEntries, entries_node_b, brtNode.dataEntries,
              List.map_cons, List.map_nil, List.cons_append, List.nil_append,
              List.append_nil, List.map_append, List.map_map, hcomp]
            rw [hp2str]

/-- Specification of `brtNode.InsertGo`: whenever the Go `Insert` does not
panic, the resulting tree is well-formed, holds exactly the old entries
plus the new key, and the inserted key was not present before. -/
theorem InsertGo_spec :
    ∀ (k : Nat) (n : brtNode α), brtNode.depth n ≤ k → brtNode.WFNode n →
      ∀ (str : bitStr) (d : α), str.wordsWF →
        ∀ t, brtNode.InsertGo n str d = some t →
          brtNode.WFNode t ∧
          (brtNode.entries t).Perm ((str.toBits, d) :: brtNode.entries n) ∧
          str.toBits ∉ keysOf (brtNode.entries n) := by
  intro k
  induction k with
  | zero =>
    intro n hdep
    exact absurd hdep (by have := depth_pos n; omega)
  | succ k ih =>
    intro n hdep hwf str d hswf t hins
    match n with
    | brtNode.node zP oP zC oC d0 =>
    have hdepz : ∀ c, zC = some c → brtNode.depth c ≤ k := by
      intro c hc
      subst hc
      have := brtNode.depth_zChild zP oP oC d0 c
      omega
    have hdepo : ∀ c, oC = some c → brtNode.depth c ≤ k := by
      intro c hc
      subst hc
      have := brtNode.depth_oChild zP oP zC d0 c
      omega
    rw [WFNode_iff_branches] at hwf
    obtain ⟨hwz, hwo⟩ := hwf
    rw [brtNode.InsertGo.eq_1] at hins
    by_cases hs0 : str.BitLen = 0
    · rw [if_pos hs0] at hins
      exact absurd hins (by simp)
    · rw [if_neg hs0] at hins
      have hslen : 0 < str.BitLen := by omega
      have hnil : str.toBits ≠ [] := by
        rw [Ne, bitStr.toBits_eq_nil_iff]
        omega
      by_cases hb : str.Bit 0 = true
      · rw [if_pos hb] at hins
        simp only [Option.map_eq_some'] at hins
        obtain ⟨⟨p2, c2⟩, hpc, ht⟩ := hins
        obtain ⟨hwb2, hperm, hfreshB⟩ :=
          InsertBranch_spec k ih true oP oC hwo hdepo str d hswf hslen hb
            p2 c2 hpc
        subst ht
        refine ⟨?_, ?_, ?_⟩
        · rw [WFNode_iff_branches]
          exact ⟨hwz, hwb2⟩
        · rw [entries_node_b, entries_node_b]
          exact (List.Perm.append_left _ hperm).trans List.perm_middle
        · rw [entries_node_b]
          simp only [keysOf, List.map_append, List.mem_append]
          rintro ((hd | hz) | ho)
          · cases d0 with
            | none => simp [brtNode.dataEntries] at hd
            | some v =>
              simp only [brtNode.dataEntries, List.map_cons, List.map_nil,
                List.mem_singleton] at hd
              exact hnil hd
          · exact not_mem_keys_branch hwz hslen (by simp [hb]) hz
          · exact hfreshB ho
      · have hbF : str.Bit 0 = false := by
          revert hb
          cases str.Bit 0 <;> simp
        rw [if_neg hb] at hins
        simp only [Option.map_eq_some'] at hins
        obtain ⟨⟨p2, c2⟩, hpc, ht⟩ := hins
        obtain ⟨hwb2, hperm, hfreshB⟩ :=
          InsertBranch_spec k ih false zP zC hwz hdepz str d hswf hslen hbF
            p2 c2 hpc
        subst ht
        refine ⟨?_, ?_, ?_⟩
        · rw [WFNode_iff_branches]
          exact ⟨hwb2, hwo⟩
        · rw [entries_node_b, entries_node_b]
          have h1 : (brtNode.dataEntries d0 ++ branchEntries p2 c2 ++
              branchEntries oP oC).Perm
              (brtNode.dataEntries d0 ++
                ((str.toBits, d) :: branchEntries zP zC) ++
                branchEntries oP oC) :=
            List.Perm.append_right _ (List.Perm.append_left _ hperm)
          refine h1.trans ?_
          have h2 : brtNode.dataEntries d0 ++
              ((str.toBits, d) :: branchEntries zP zC) ++
              branchEntries oP oC =
              brtNode.dataEntries d0 ++
              ((str.toBits, d) :: (branchEntries zP zC ++
                branchEntries oP oC)) := by
            simp [List.append_assoc]
          rw [h2]
          refine List.perm_middle.trans ?_
          simp [List.append_assoc]
        · rw [entries_node_b]
          simp only [keysOf, List.map_append, List.mem_append]
          rintro ((hd | hz) | ho)
          · cases d0 with
            | none => simp [brtNode.dataEntries] at hd
            | some v =>
              simp only [brtNode.dataEntries, List.map_cons, List.map_nil,
                List.mem_singleton] at hd
              exact hnil hd
          · exact hfreshB hz
          · exact not_mem_keys_branch hwo hslen (by simp [hbF]) ho

/-- Go builds a trie by consecutive `Insert` calls on the root; `none`
marks a panic of any of them. -/
def buildTrie (n : brtNode α) : List (bitStr × α) → Option (brtNode α)
  | [] => some n
  | p :: r =>
    match brtNode.InsertGo n p.1 p.2 with
    | none => none
    | some t => buildTrie t r

theorem buildTrie_cons_some {n t : brtNode α} {p : bitStr × α}
    {r : List (bitStr × α)} (h : brtNode.InsertGo n p.1 p.2 = some t) :
    buildTrie n (p :: r) = buildTrie t r := by
  simp only [buildTrie, h]

theorem buildTrie_cons_none {n : brtNode α} {p : bitStr × α}
    {r : List (bitStr × α)} (h : brtNode.InsertGo n p.1 p.2 = none) :
    buildTrie n (p :: r) = none := by
  simp only [buildTrie, h]

/-- The abstract entry a `(key, payload)` pair contributes. -/
def entryOf (p : bitStr × α) : List Bool × α := (p.1.toBits, p.2)

theorem entries_empty : brtNode.entries (brtNode.empty : brtNode α) = [] := by
  rw [brtNode.empty, entries_node_b]
  rfl

/-- A successful sequence of insertions preserves well-formedness,
accumulates exactly the inserted entries, and keeps the keys free of
duplicates. -/
theorem buildTrie_spec :
    ∀ (l : List (bitStr × α)), (∀ p ∈ l, p.1.wordsWF) →
      ∀ (n : brtNode α), brtNode.WFNode n →
        ∀ t, buildTrie n l = some t →
          brtNode.WFNode t ∧
          (brtNode.entries t).Perm (l.map entryOf ++ brtNode.entries n) ∧
          ((keysOf (brtNode.entries n)).Nodup →
            (keysOf (brtNode.entries t)).Nodup) := by
  intro l
  induction l with
  | nil =>
    intro _ n hwf t ht
    rw [buildTrie] at ht
    rw [← Option.some_inj.mp ht]
    exact ⟨hwf, by simp, fun h => h⟩
  | cons p r ihr =>
    intro hwords n hwf t ht
    rw [buildTrie] at ht
    cases hins : brtNode.InsertGo n p.1 p.2 with
    | none => rw [hins] at ht; exact absurd ht (by simp)
    | some t1 =>
      rw [hins] at ht
      obtain ⟨hwf1, hperm1, hfresh1⟩ :=
        InsertGo_spec (brtNode.depth n) n le_rfl hwf p.1 p.2
          (hwords p (List.mem_cons_self p r)) t1 hins
      obtain ⟨hwft, hpermt, hndt⟩ :=
        ihr (fun x hx => hwords x (List.mem_cons_of_mem p hx)) t1 hwf1 t ht
      refine ⟨hwft, ?_, ?_⟩
      · refine hpermt.trans ?_
        refine (List.Perm.append_left _ hperm1).trans ?_
        simp only [List.map_cons, List.cons_append]
        exact List.perm_middle
      · intro hnd
        apply hndt
        have hpk := hperm1.map Prod.fst
        refine hpk.symm.nodup ?_
        simp only [List.map_cons]
        exact List.nodup_cons.mpr ⟨hfresh1, hnd⟩

/-- `bestOf` only depends on the entry list up to permutation, provided
the keys are free of duplicates. -/
theorem bestOf_congr {l lq : List (List Bool × α)} (hp : l.Perm lq)
    (hnd : (l.map Prod.fst).Nodup) (q : List Bool) :
    bestOf l q = bestOf lq q := by
  cases h1 : bestOf l q with
  | none =>
    cases h2 : bestOf lq q with
    | none => rfl
    | some e =>
      obtain ⟨hmem, hpfx, _⟩ := bestOf_spec h2
      rw [bestOf_eq_none_iff] at h1
      have hmem1 : e ∈ matchesQ l q :=
        List.mem_filter.mpr ⟨hp.symm.subset hmem, by simpa using hpfx⟩
      rw [h1] at hmem1
      exact absurd hmem1 (List.not_mem_nil e)
  | some e =>
    cases h2 : bestOf lq q with
    | none =>
      obtain ⟨hmem, hpfx, _⟩ := bestOf_spec h1
      rw [bestOf_eq_none_iff] at h2
      have hmem2 : e ∈ matchesQ lq q :=
        List.mem_filter.mpr ⟨hp.subset hmem, by simpa using hpfx⟩
      rw [h2] at hmem2
      exact absurd hmem2 (List.not_mem_nil e)
    | some e2 =>
      obtain ⟨hm1, hp1, hmax1⟩ := bestOf_spec h1
      obtain ⟨hm2, hp2, hmax2⟩ := bestOf_spec h2
      have hm2l : e2 ∈ l := hp.symm.subset hm2
      have hm1q : e ∈ lq := hp.subset hm1
      have hlen : e.1.length = e2.1.length :=
        le_antisymm (hmax2 e hm1q hp1) (hmax1 e2 hm2l hp2)
      have hkey : e.1 = e2.1 :=
        (List.prefix_of_prefix_length_le hp1 hp2 (le_of_eq hlen)).eq_of_length
          hlen
      rw [List.inj_on_of_nodup_map hnd hm1 hm2l hkey]

/-! ### Concrete insertion runs for claim C7

Keys (as bit strings): `"00"` = `⟨[0], 2⟩`, `"01"` = `⟨[0x40000000], 2⟩`,
`"0"` = `⟨[0], 1⟩`.  Inserting `"00"` and `"01"` first creates a junction
node whose path spells exactly `"0"`; inserting `"0"` afterwards panics in
Go (`"duplicated key found"`) although `"0"` was never inserted.  In the
other order all three insertions succeed. -/

def c7leaf (v : Nat) : brtNode Nat :=
  brtNode.node bitStr.empty bitStr.empty none none (some v)

def c7A1 : brtNode Nat :=
  brtNode.node ⟨[0], 2⟩ bitStr.empty (some (c7leaf 0)) none none

def c7A2 : brtNode Nat :=
  brtNode.node ⟨[0], 1⟩ bitStr.empty
    (some (brtNode.node ⟨[0], 1⟩ ⟨[2147483648], 1⟩
      (some (c7leaf 0)) (some (c7leaf 1)) none)) none none

def c7B1 : brtNode Nat :=
  brtNode.node ⟨[0], 1⟩ bitStr.empty (some (c7leaf 2)) none none

def c7B2 : brtNode Nat :=
  brtNode.node ⟨[0], 1⟩ bitStr.empty
    (some (brtNode.node ⟨[0], 1⟩ bitStr.empty
      (some (c7leaf 0)) none (some 2))) none none

def c7B3 : brtNode Nat :=
  brtNode.node ⟨[0], 1⟩ bitStr.empty
    (some (brtNode.node ⟨[0], 1⟩ ⟨[2147483648], 1⟩
      (some (c7leaf 0)) (some (c7leaf 1)) (some 2))) none none

def c7C1 : brtNode Nat :=
  brtNode.node ⟨[1073741824], 2⟩ bitStr.empty (some (c7leaf 1)) none none

def c7C2 : brtNode Nat :=
  brtNode.node ⟨[1073741824], 1⟩ bitStr.empty
    (some (brtNode.node ⟨[0], 1⟩ ⟨[2147483648], 1⟩
      (some (c7leaf 0)) (some (c7leaf 1)) none)) none none

theorem c7shrink : shrinkLoop 1073741824 32 = 1 := by
  simp [shrinkLoop]

theorem c7_step1 : brtNode.InsertGo (brtNode.empty : brtNode Nat) ⟨[0], 2⟩ 0 =
    some c7A1 := by
  simp [brtNode.InsertGo, brtNode.InsertBranch, bitStr.CommPfxLen, cplLoop,
    c7shrink, bitStr.Substr, substrLoop, bitStr.Bit, bitStr.empty,
    List.range_succ, List.range_zero,
    brtNode.empty, w32Mod, c7A1, c7leaf]

theorem c7cplA : bitStr.CommPfxLen ⟨[0], 2⟩ ⟨[1073741824], 2⟩ = 1 := by
  simp [bitStr.CommPfxLen, cplLoop, c7shrink]

theorem c7_step2 : brtNode.InsertGo c7A1 ⟨[1073741824], 2⟩ 1 = some c7A2 := by
  have hb0 : (⟨[1073741824], 2⟩ : bitStr).Bit 0 = false := by decide
  have hbit1 : (⟨[0], 2⟩ : bitStr).Bit 1 = false := by decide
  have hsub1 : (⟨[1073741824], 2⟩ : bitStr).Substr 1 1 = ⟨[2147483648], 1⟩ := by
    decide
  have hsub2 : (⟨[0], 2⟩ : bitStr).Substr 1 1 = ⟨[0], 1⟩ := by decide
  have hsub3 : (⟨[0], 2⟩ : bitStr).Substr 0 1 = ⟨[0], 1⟩ := by decide
  rw [c7A1, brtNode.InsertGo.eq_1]
  simp [c7cplA, hb0, hbit1, hsub1, hsub2, hsub3, brtNode.InsertBranch,
    c7A2, c7leaf]

theorem c7_step3 : brtNode.InsertGo c7A2 ⟨[0], 1⟩ 2 = none := by
  simp [brtNode.InsertGo, brtNode.InsertBranch, bitStr.CommPfxLen, cplLoop,
    c7shrink, bitStr.Substr, substrLoop, bitStr.Bit, bitStr.empty,
    List.range_succ, List.range_zero,
    brtNode.empty, w32Mod, c7A2, c7leaf]

theorem c7_step4 : brtNode.InsertGo (brtNode.empty : brtNode Nat) ⟨[0], 1⟩ 2 =
    some c7B1 := by
  simp [brtNode.InsertGo, brtNode.InsertBranch, bitStr.CommPfxLen, cplLoop,
    c7shrink, bitStr.Substr, substrLoop, bitStr.Bit, bitStr.empty,
    List.range_succ, List.range_zero,
    brtNode.empty, w32Mod, c7B1, c7leaf]

theorem c7_step5 : brtNode.InsertGo c7B1 ⟨[0], 2⟩ 0 = some c7B2 := by
  simp [brtNode.InsertGo, brtNode.InsertBranch, bitStr.CommPfxLen, cplLoop,
    c7shrink, bitStr.Substr, substrLoop, bitStr.Bit, bitStr.empty,
    List.range_succ, List.range_zero,
    brtNode.empty, w32Mod, c7B1, c7B2, c7leaf]

theorem c7cplB : bitStr.CommPfxLen ⟨[0], 1⟩ ⟨[1073741824], 2⟩ = 1 := by
  simp [bitStr.CommPfxLen, cplLoop, c7shrink]

theorem c7_step6 : brtNode.InsertGo c7B2 ⟨[1073741824], 2⟩ 1 = some c7B3 := by
  have hb0 : (⟨[1073741824], 2⟩ : bitStr).Bit 0 = false := by decide
  have hsub1 : (⟨[1073741824], 2⟩ : bitStr).Substr 1 1 = ⟨[2147483648], 1⟩ := by
    decide
  have hb1 : (⟨[2147483648], 1⟩ : bitStr).Bit 0 = true := by decide
  have hcpl0 : bitStr.CommPfxLen ⟨[], 0⟩ ⟨[2147483648], 1⟩ = 0 := by decide
  have hsub0 : (⟨[2147483648], 1⟩ : bitStr).Substr 0 1 = ⟨[2147483648], 1⟩ := by
    decide
  have hsubE : (⟨[], 0⟩ : bitStr).Substr 0 0 = ⟨[], 0⟩ := by decide
  have hbE : (⟨[], 0⟩ : bitStr).Bit 0 = false := by decide
  rw [c7B2, brtNode.InsertGo.eq_1]
  simp [c7cplB, hb0, hsub1, hb1, hcpl0, hsub0, hsubE, hbE, brtNode.InsertGo,
    brtNode.InsertBranch, bitStr.empty, c7B3, c7leaf]

theorem c7_step7 : brtNode.InsertGo (brtNode.empty : brtNode Nat)
    ⟨[1073741824], 2⟩ 1 = some c7C1 := by
  simp [brtNode.InsertGo, brtNode.InsertBranch, bitStr.CommPfxLen, cplLoop,
    c7shrink, bitStr.Substr, substrLoop, bitStr.Bit, bitStr.empty,
    List.range_succ, List.range_zero,
    brtNode.empty, w32Mod, c7C1, c7leaf]

theorem c7cplC : bitStr.CommPfxLen ⟨[1073741824], 2⟩ ⟨[0], 2⟩ = 1 := by
  simp [bitStr.CommPfxLen, cplLoop, c7shrink]

theorem c7_step8 : brtNode.InsertGo c7C1 ⟨[0], 2⟩ 0 = some c7C2 := by
  have hb0 : (⟨[0], 2⟩ : bitStr).Bit 0 = false := by decide
  have hbit1 : (⟨[1073741824], 2⟩ : bitStr).Bit 1 = true := by decide
  have hsub1 : (⟨[0], 2⟩ : bitStr).Substr 1 1 = ⟨[0], 1⟩ := by decide
  have hsub2 : (⟨[1073741824], 2⟩ : bitStr).Substr 1 1 = ⟨[2147483648], 1⟩ := by
    decide
  have hsub3 : (⟨[1073741824], 2⟩ : bitStr).Substr 0 1 = ⟨[1073741824], 1⟩ := by
    decide
  rw [c7C1, brtNode.InsertGo.eq_1]
  simp [c7cplC, hb0, hbit1, hsub1, hsub2, hsub3, brtNode.InsertBranch,
    c7C2, c7leaf]

/-- C7 (amended): radix-trie insertion is order-independent over every
sequence of `Insert` calls that Go completes without panicking — if the
same set of entries is inserted in two orders and both runs succeed, the
two tries answer every `FindPrefix` query identically (the unamended
claim fails: whether the run panics depends on the order, see
`claim7_counterexample`). -/
theorem claim7_insert_order_independent
    (l1 l2 : List (bitStr × α)) (hperm : l1.Perm l2)
    (hwords : ∀ p ∈ l1, p.1.wordsWF)
    (t1 t2 : brtNode α)
    (h1 : buildTrie brtNode.empty l1 = some t1)
    (h2 : buildTrie brtNode.empty l2 = some t2)
    (q : bitStr) (hq : q.wordsWF) :
    brtNode.FindPrefix t1 q = brtNode.FindPrefix t2 q := by
  obtain ⟨hwf1, hp1, hnd1⟩ := buildTrie_spec l1 hwords brtNode.empty
    brtNode.WFNode_empty t1 h1
  obtain ⟨hwf2, hp2, hnd2⟩ := buildTrie_spec l2
    (fun p hp => hwords p (hperm.symm.subset hp)) brtNode.empty
    brtNode.WFNode_empty t2 h2
  rw [entries_empty, List.append_nil] at hp1 hp2
  have hnd1e : (keysOf (brtNode.entries t1)).Nodup :=
    hnd1 (by rw [entries_empty]; exact List.nodup_nil)
  have hchain : (brtNode.entries t1).Perm (brtNode.entries t2) :=
    (hp1.trans (hperm.map entryOf)).trans hp2.symm
  rw [brtNode.FindPrefix, brtNode.FindPrefix,
    FindPrefixLoop_eq_bestOf (brtNode.depth t1) t1 le_rfl hwf1 q none hq,
    FindPrefixLoop_eq_bestOf (brtNode.depth t2) t2 le_rfl hwf2 q none hq,
    bestOf_congr hchain hnd1e q.toBits]

/-- C7, counterexample to the unamended claim: the set
`{("00", 0), ("01", 1), ("0", 2)}` of three distinct well-formed keys can
be inserted in the order `"0"`, `"00"`, `"01"` (the Go code builds a
trie), but in the order `"00"`, `"01"`, `"0"` the third `Insert` panics
with `"duplicated key found"` — so two orders of the same set do not even
agree on whether a resulting trie exists, let alone on every lookup. -/
theorem claim7_counterexample :
    [((⟨[0], 2⟩ : bitStr), (0 : Nat)), (⟨[1073741824], 2⟩, 1),
        (⟨[0], 1⟩, 2)].Perm
      [(⟨[0], 1⟩, 2), (⟨[0], 2⟩, 0), (⟨[1073741824], 2⟩, 1)] ∧
    (⟨[0], 2⟩ : bitStr).toBits ≠ (⟨[1073741824], 2⟩ : bitStr).toBits ∧
    (⟨[0], 2⟩ : bitStr).toBits ≠ (⟨[0], 1⟩ : bitStr).toBits ∧
    (⟨[1073741824], 2⟩ : bitStr).toBits ≠ (⟨[0], 1⟩ : bitStr).toBits ∧
    (buildTrie brtNode.empty
      [((⟨[0], 1⟩ : bitStr), (2 : Nat)), (⟨[0], 2⟩, 0),
        (⟨[1073741824], 2⟩, 1)]).isSome = true ∧
    buildTrie brtNode.empty
      [((⟨[0], 2⟩ : bitStr), (0 : Nat)), (⟨[1073741824], 2⟩, 1),
        (⟨[0], 1⟩, 2)] = none := by
  refine ⟨by decide, by decide, by decide, by decide, ?_, ?_⟩
  · rw [buildTrie_cons_some c7_step4, buildTrie_cons_some c7_step5,
      buildTrie_cons_some c7_step6]
    rfl
  · rw [buildTrie_cons_some c7_step1, buildTrie_cons_some c7_step2,
      buildTrie_cons_none c7_step3]

/-- Witness for C7: the amended theorem applied to the two insertion
orders of `{("00", 0), ("01", 1)}`, both of which succeed and yield
structurally different tries that agree on the query `"00"`. -/
theorem claim7_insert_order_independent_witness :
    buildTrie brtNode.empty
      [((⟨[0], 2⟩ : bitStr), (0 : Nat)), (⟨[1073741824], 2⟩, 1)] =
        some c7A2 ∧
    buildTrie brtNode.empty
      [((⟨[1073741824], 2⟩ : bitStr), (1 : Nat)), (⟨[0], 2⟩, 0)] =
        some c7C2 ∧
    brtNode.FindPrefix c7A2 ⟨[0], 2⟩ = brtNode.FindPrefix c7C2 ⟨[0], 2⟩ := by
  have hA : buildTrie brtNode.empty
      [((⟨[0], 2⟩ : bitStr), (0 : Nat)), (⟨[1073741824], 2⟩, 1)] =
        some c7A2 := by
    rw [buildTrie_cons_some c7_step1, buildTrie_cons_some c7_step2, buildTrie]
  have hC : buildTrie brtNode.empty
      [((⟨[1073741824], 2⟩ : bitStr), (1 : Nat)), (⟨[0], 2⟩, 0)] =
        some c7C2 := by
    rw [buildTrie_cons_some c7_step7, buildTrie_cons_some c7_step8, buildTrie]
  exact ⟨hA, hC, claim7_insert_order_independent _ _ (by decide) (by decide)
    _ _ hA hC ⟨[0], 2⟩ (by decide)⟩

/-! ### Claim C1: the IP matcher (part_001) and the byte-packing bug

`ipMatcher` inserts `bitStrFromBytes(ipNet.IP.To16(), patternLen)` (IPv4
prefix lengths shifted up by 96) and queries
`FindPrefix(bitStrFromBytes(ip.To16(), 128))`. -/

/-- `ipMatcher.Match` of part_001 on an already-built trie: look the
16-byte address up as a 128-bit string. -/
def ipMatch (m : brtNode α) (ip16 : List Nat) : Option α :=
  brtNode.FindPrefix m (bitStrFromBytes ip16 128)

/-- Reference reading of the first `n` bits of a byte string, most
significant bit of each byte first — the prefix-of-address notion the
spec states the matcher decides. -/
def bytesToBits (b : List Nat) (n : Nat) : List Bool :=
  (List.range n).map (fun i => ((b.getD (i / 8) 0) >>> (7 - i % 8)) &&& 1 = 1)

/-- The 16-byte mapped form of 10.0.0.128 (also the pattern
10.0.0.128/25, i.e. 121 bits after the +96 shift of part_001). -/
def c1pat : List Nat := [0, 0, 0, 0, 0, 0, 0, 0, 0, 0, 255, 255, 10, 0, 0, 128]

/-- The trie after inserting the /121 pattern: note word 3 is
`0x0A000800` — the Go tail-byte loop shifts the last byte by 4 instead
of 0, so the stored key is garbled (`0x0A000080` would be correct). -/
def c1tree : brtNode Nat :=
  brtNode.node ⟨[0, 0, 65535, 167774208], 121⟩ bitStr.empty
    (some (brtNode.node bitStr.empty bitStr.empty none none (some 0)))
    none none

theorem c1key : bitStrFromBytes c1pat 121 = ⟨[0, 0, 65535, 167774208], 121⟩ := by
  decide

theorem c1qry : bitStrFromBytes c1pat 128 = ⟨[0, 0, 65535, 167772288], 128⟩ := by
  decide

theorem c1shrink : shrinkLoop 2176 128 = 116 := by
  simp [shrinkLoop]

theorem c1cplq : bitStr.CommPfxLen ⟨[0, 0, 65535, 167772288], 128⟩
    ⟨[0, 0, 65535, 167774208], 121⟩ = 116 := by
  simp [bitStr.CommPfxLen, cplLoop, c1shrink]

theorem c1insert : brtNode.InsertGo brtNode.empty
    (⟨[0, 0, 65535, 167774208], 121⟩ : bitStr) (0 : Nat) = some c1tree := by
  have hb0 : (⟨[0, 0, 65535, 167774208], 121⟩ : bitStr).Bit 0 = false := by
    decide
  have hcpl0 : bitStr.CommPfxLen ⟨[], 0⟩ ⟨[0, 0, 65535, 167774208], 121⟩ = 0 := by
    decide
  have hsub : (⟨[0, 0, 65535, 167774208], 121⟩ : bitStr).Substr 0 121 =
      ⟨[0, 0, 65535, 167774208], 121⟩ := by decide
  rw [brtNode.empty, brtNode.InsertGo.eq_1]
  simp [hb0, hcpl0, hsub, brtNode.InsertBranch, bitStr.empty, c1tree]

theorem c1find : ipMatch c1tree c1pat = none := by
  rw [ipMatch, c1qry, brtNode.FindPrefix, c1tree, FindPrefixLoop_node]
  have hb0 : (⟨[0, 0, 65535, 167772288], 128⟩ : bitStr).Bit 0 = false := by
    decide
  simp [hb0, c1cplq]

/-- C1, code bug (claim refuted by the code): the ipMatcher misses
addresses inside an inserted prefix whose bit length is 25..31 modulo 32
(e.g. any IPv4 /25../31 CIDR).  `bitStrFromBytes` packs the tailing
bytes with shifts 24, 16, 8, 4 — the Go loop halves the shift
(`shift >>= 1`) instead of stepping it by 8 — so the key stored for the
pattern 10.0.0.128/25 (121 bits) is garbled, and looking up the pattern
address 10.0.0.128 itself returns no match, although its 121-bit prefix
is in the inserted set (third conjunct: the 121-bit prefix of the
address equals the bits of the inserted pattern). -/
theorem claim1_code_bug :
    brtNode.InsertGo brtNode.empty (bitStrFromBytes c1pat 121) (0 : Nat) =
      some c1tree ∧
    bytesToBits c1pat 121 <+: bytesToBits c1pat 128 ∧
    ipMatch c1tree c1pat = none := by
  refine ⟨?_, by decide, c1find⟩
  rw [c1key]
  exact c1insert

end insertCorrect

/-! ## Claim C3: the HTTP CONNECT tunnel client (http_tunnel.go)

`readResponse` reads the status line, parses the second whitespace-
separated field as the status code, and maps it to a result; on 200 it
drains the headers up to the first empty line.  Lines arrive as byte
strings from `ReadLine`. -/

/-- The `ProxyErrorType` byte constants of lib (pre_conn.go 224-229). -/
def ProxyGeneralErr : Nat := 1

def ProxyNotAllowed : Nat := 2

def ProxyConnectFailed : Nat := 5

def ProxyCmdUnsupported : Nat := 7

def ProxyAddrUnsupported : Nat := 8

/-- ASCII whitespace, the separator set of Go `strings.Fields`
(`unicode.IsSpace`; the inputs here are ASCII). -/
def isSpaceB (c : Nat) : Bool :=
  c = 32 || c = 9 || c = 10 || c = 11 || c = 12 || c = 13

def fieldsBAux (acc : List Nat) : List Nat → List (List Nat)
  | [] => if acc.isEmpty then [] else [acc.reverse]
  | c :: r =>
    if isSpaceB c then
      if acc.isEmpty then fieldsBAux [] r else acc.reverse :: fieldsBAux [] r
    else fieldsBAux (c :: acc) r

/-- Go `strings.Fields`: the maximal whitespace-free runs. -/
def fieldsB (l : List Nat) : List (List Nat) := fieldsBAux [] l

def digitsVal (acc : Nat) : List Nat → Option Nat
  | [] => some acc
  | c :: r => if 48 ≤ c ∧ c ≤ 57 then digitsVal (acc * 10 + (c - 48)) r
              else none

/-- Go `strconv.Atoi` on a byte string: optional sign then decimal
digits (overflow of the 64-bit range is not modelled; the status codes
involved are small). -/
def goAtoi (l : List Nat) : Option Int :=
  match l with
  | [] => none
  | 43 :: r => if r.isEmpty then none else (digitsVal 0 r).map (fun n => (n : Int))
  | 45 :: r => if r.isEmpty then none else (digitsVal 0 r).map (fun n => -(n : Int))
  | _ => (digitsVal 0 l).map (fun n => (n : Int))

/-- The header-dropping loop of `readResponse`: read until an empty
line (success) or the stream ends (a read error, `ProxyGeneralErr`). -/
def dropHeaders : List (List Nat) → Option Nat
  | [] => some ProxyGeneralErr
  | l :: rest => if l.isEmpty then none else dropHeaders rest

/-- `HTTPTunnelClient.readResponse` from http_tunnel.go over the list of
lines the connection yields; `none` is success (the stream is handed to
the caller), `some e` the `ProxyError` type returned.  Go `/` on int is
truncated division, `Int.tdiv`. -/
def readResponse : List (List Nat) → Option Nat
  | [] => some ProxyGeneralErr
  | heading :: rest =>
    let hFields := fieldsB heading
    if hFields.length < 2 then some ProxyGeneralErr
    else
      match goAtoi (hFields.getD 1 []) with
      | none => some ProxyGeneralErr
      | some code =>
        if code ≠ 200 then
          if Int.tdiv code 100 = 4 then some ProxyCmdUnsupported
          else if Int.tdiv code 100 = 5 then some ProxyConnectFailed
          else some ProxyGeneralErr
        else dropHeaders rest

/-- C3 (amended): the status mapping of `readResponse` — success exactly
on status code 200 (with the headers then drained up to an empty line),
`CmdUnsupported` on 4xx, `ConnectFailed` on 5xx, and `GeneralErr` on
every other code, including the non-200 2xx codes the unamended claim
calls successes. -/
theorem claim3_status_mapping (heading : List Nat) (rest : List (List Nat))
    (code : Int)
    (hf : 2 ≤ (fieldsB heading).length)
    (hc : goAtoi ((fieldsB heading).getD 1 []) = some code) :
    (readResponse (heading :: rest) = none ↔
      code = 200 ∧ dropHeaders rest = none) ∧
    (code ≠ 200 → 200 ≤ code → code ≤ 299 →
      readResponse (heading :: rest) = some ProxyGeneralErr) ∧
    (400 ≤ code → code ≤ 499 →
      readResponse (heading :: rest) = some ProxyCmdUnsupported) ∧
    (500 ≤ code → code ≤ 599 →
      readResponse (heading :: rest) = some ProxyConnectFailed) ∧
    (code ≠ 200 → Int.tdiv code 100 ≠ 4 → Int.tdiv code 100 ≠ 5 →
      readResponse (heading :: rest) = some ProxyGeneralErr) := by
  have hdiv : ∀ (a : Nat), Int.tdiv (a : Int) 100 = ((a / 100 : Nat) : Int) :=
    fun a => rfl
  have hout : readResponse (heading :: rest) =
      if code ≠ 200 then
        if Int.tdiv code 100 = 4 then some ProxyCmdUnsupported
        else if Int.tdiv code 100 = 5 then some ProxyConnectFailed
        else some ProxyGeneralErr
      else dropHeaders rest := by
    rw [readResponse]
    simp only [if_neg (by omega : ¬ (fieldsB heading).length < 2), hc]
  rw [hout]
  by_cases h200 : code = 200
  · subst h200
    simp [ProxyGeneralErr, ProxyCmdUnsupported, ProxyConnectFailed]
  · refine ⟨?_, ?_, ?_, ?_, ?_⟩
    · constructor
      · intro h
        rw [if_pos h200] at h
        split at h
        · simp at h
        · split at h <;> simp at h
      · rintro ⟨h, _⟩
        exact absurd h h200
    · intro _ hlo hhi
      obtain ⟨n, rfl⟩ := Int.eq_ofNat_of_zero_le (by omega : (0 : Int) ≤ code)
      have hn : n / 100 = 2 := by omega
      have hd4 : Int.tdiv (n : Int) 100 ≠ 4 := by rw [hdiv, hn]; decide
      have hd5 : Int.tdiv (n : Int) 100 ≠ 5 := by rw [hdiv, hn]; decide
      simp [h200, hd4, hd5]
    · intro hlo hhi
      obtain ⟨n, rfl⟩ := Int.eq_ofNat_of_zero_le (by omega : (0 : Int) ≤ code)
      have hn : n / 100 = 4 := by omega
      have hd4 : Int.tdiv (n : Int) 100 = 4 := by rw [hdiv, hn]; decide
      simp [h200, hd4]
    · intro hlo hhi
      obtain ⟨n, rfl⟩ := Int.eq_ofNat_of_zero_le (by omega : (0 : Int) ≤ code)
      have hn : n / 100 = 5 := by omega
      have hd4 : Int.tdiv (n : Int) 100 ≠ 4 := by rw [hdiv, hn]; decide
      have hd5 : Int.tdiv (n : Int) 100 = 5 := by rw [hdiv, hn]; decide
      simp [h200, hd4, hd5]
    · intro _ hd4 hd5
      simp [h200, hd4, hd5]

/-- C3, counterexample to the unamended claim: the 2xx status line
`"HTTP/1.1 201 Created"` does not yield success — `readResponse` returns
a `GeneralErr` proxy error (only the exact code 200 succeeds, which the
second conjunct shows on `"HTTP/1.1 200 OK"` with one header line). -/
theorem claim3_counterexample :
    readResponse
      [[72, 84, 84, 80, 47, 49, 46, 49, 32, 50, 48, 49, 32,
        67, 114, 101, 97, 116, 101, 100], []] = some ProxyGeneralErr ∧
    readResponse
      [[72, 84, 84, 80, 47, 49, 46, 49, 32, 50, 48, 48, 32, 79, 75],
        [88, 58, 32, 121], []] = none := by
  constructor
  · rfl
  · rfl

/-- Witness for C3: the mapping theorem applied to the status line
`"HTTP/1.1 404 Not Found"` (fields `["HTTP/1.1", "404", "Not", "Found"]`,
code 404), giving `ProxyCmdUnsupported`. -/
theorem claim3_status_mapping_witness :
    readResponse
      [[72, 84, 84, 80, 47, 49, 46, 49, 32, 52, 48, 52, 32],
        []] = some ProxyCmdUnsupported := by
  have h := claim3_status_mapping
    [72, 84, 84, 80, 47, 49, 46, 49, 32, 52, 48, 52, 32] [[]] 404
    (by decide) (by decide)
  exact h.2.2.1 (by decide) (by decide)

/-! ## Claim C4: the cipher-suite list of `NewTLSTransport` (tls.go)

The numeric values are the TLS cipher-suite identifiers of Go
`crypto/tls`. -/

def TLS_ECDHE_RSA_WITH_AES_256_GCM_SHA384 : Nat := 49200

def TLS_ECDHE_ECDSA_WITH_AES_256_GCM_SHA384 : Nat := 49196

def TLS_ECDHE_RSA_WITH_CHACHA20_POLY1305 : Nat := 52392

def TLS_ECDHE_ECDSA_WITH_CHACHA20_POLY1305 : Nat := 52393

def TLS_ECDHE_RSA_WITH_AES_128_GCM_SHA256 : Nat := 49199

def TLS_ECDHE_ECDSA_WITH_AES_128_GCM_SHA256 : Nat := 49195

def TLS_ECDHE_ECDSA_WITH_AES_128_CBC_SHA256 : Nat := 49187

def TLS_ECDHE_RSA_WITH_AES_128_CBC_SHA256 : Nat := 49191

/-- `tc.CipherSuites` as set by `NewTLSTransport` (tls.go 79-88), in
source order. -/
def NewTLSTransportCipherSuites : List Nat :=
  [TLS_ECDHE_RSA_WITH_AES_256_GCM_SHA384,
   TLS_ECDHE_ECDSA_WITH_AES_256_GCM_SHA384,
   TLS_ECDHE_RSA_WITH_CHACHA20_POLY1305,
   TLS_ECDHE_ECDSA_WITH_CHACHA20_POLY1305,
   TLS_ECDHE_RSA_WITH_AES_128_GCM_SHA256,
   TLS_ECDHE_ECDSA_WITH_AES_128_GCM_SHA256,
   TLS_ECDHE_ECDSA_WITH_AES_128_CBC_SHA256,
   TLS_ECDHE_RSA_WITH_AES_128_CBC_SHA256]

/-- The ECDHE-key-exchange suites of the Go `crypto/tls` registry (of
this Go era): ids 0xC007-0xC030 and the two CHACHA20 ids. -/
def goTLSECDHESuites : List Nat :=
  [49159, 49161, 49162, 49169, 49170, 49171, 49172, 49187, 49191,
   49195, 49196, 49199, 49200, 52392, 52393]

/-- The suites of the Go `crypto/tls` registry whose bulk cipher runs in
CBC mode. -/
def goTLSCBCSuites : List Nat :=
  [10, 47, 53, 60, 49161, 49162, 49170, 49171, 49172, 49187, 49191]

/-- The suites of the Go `crypto/tls` registry whose bulk cipher is
AES-GCM or CHACHA20-POLY1305 — the allowlist of the spec sentence. -/
def goTLSGCMChachaSuites : List Nat :=
  [156, 157, 49195, 49196, 49199, 49200, 52392, 52393]

/-- C4 (amended): every suite `NewTLSTransport` configures uses ECDHE
key exchange, and the first six are AES-GCM or CHACHA20-POLY1305
suites — but the list also enables the two ECDHE AES-128-CBC-SHA256
suites (ids 0xC023 and 0xC027), so the "no CBC suite" half of the
unamended claim is false. -/
theorem claim4_cipher_suites :
    (∀ c ∈ NewTLSTransportCipherSuites, c ∈ goTLSECDHESuites) ∧
    NewTLSTransportCipherSuites.filter
        (fun c => decide (c ∈ goTLSGCMChachaSuites)) =
      [TLS_ECDHE_RSA_WITH_AES_256_GCM_SHA384,
       TLS_ECDHE_ECDSA_WITH_AES_256_GCM_SHA384,
       TLS_ECDHE_RSA_WITH_CHACHA20_POLY1305,
       TLS_ECDHE_ECDSA_WITH_CHACHA20_POLY1305,
       TLS_ECDHE_RSA_WITH_AES_128_GCM_SHA256,
       TLS_ECDHE_ECDSA_WITH_AES_128_GCM_SHA256] ∧
    NewTLSTransportCipherSuites.filter
        (fun c => decide (c ∈ goTLSCBCSuites)) =
      [TLS_ECDHE_ECDSA_WITH_AES_128_CBC_SHA256,
       TLS_ECDHE_RSA_WITH_AES_128_CBC_SHA256] := by
  decide

/-- C4, counterexample to the unamended claim: the configured list
contains `TLS_ECDHE_ECDSA_WITH_AES_128_CBC_SHA256` (0xC023), a CBC
suite outside the ECDHE+GCM/CHACHA20 allowlist. -/
theorem claim4_counterexample :
    TLS_ECDHE_ECDSA_WITH_AES_128_CBC_SHA256 ∈ NewTLSTransportCipherSuites ∧
    TLS_ECDHE_ECDSA_WITH_AES_128_CBC_SHA256 ∈ goTLSCBCSuites ∧
    TLS_ECDHE_ECDSA_WITH_AES_128_CBC_SHA256 ∉ goTLSGCMChachaSuites := by
  decide

/-! ## Claims C6 and C10: the KCP inner framing (part_006 418-467,
part_012 133-184)

`Write` frames a buffer as `[kcpDataPacket, 4-byte big-endian length,
payload]` and hands the whole frame to the underlying KCP session;
`Read` parses a frame type byte, treating `kcpClose` as end-of-stream,
and then drains the announced number of payload bytes.  The underlying
`UDPSession` is modelled as a reliable byte stream (`List Nat`); a read
past its end (which would block or fail in Go) is `readErr`. -/

def kcpDataPacket : Nat := 0

def kcpClose : Nat := 1

def kcpKeepAlive : Nat := 2

/-- `binary.BigEndian.PutUint32` (with Go byte truncation). -/
def be32 (n : Nat) : List Nat :=
  [(n >>> 24) % 256, (n >>> 16) % 256, (n >>> 8) % 256, n % 256]

/-- `binary.BigEndian.Uint32`. -/
def be32val (b : List Nat) : Nat :=
  (b.getD 0 0) * 16777216 + (b.getD 1 0) * 65536 +
    (b.getD 2 0) * 256 + b.getD 3 0

/-- The outcome of one `kcpConnWrapper.Read` call: a chunk of payload
bytes together with the updated `rdDataLeft` and the unconsumed wire,
end-of-stream (`io.EOF`), or an error (including a read past the end of
the modelled stream). -/
inductive kcpReadRes where
  | bytes (data : List Nat) (left : Nat) (rest : List Nat) : kcpReadRes
  | eof : kcpReadRes
  | readErr : kcpReadRes
deriving DecidableEq, Repr

/-- The header loop of `kcpConnWrapper.Read` (`rdDataLeft = 0`): read a
type byte; `kcpClose` is EOF, `kcpKeepAlive` is skipped (part_006; the
part_012 variant has no keep-alives on the wire), `kcpDataPacket`
announces a 4-byte big-endian payload length which is then drained up
to the caller buffer size `bufLen`. -/
def kcpReadLoop (bufLen : Nat) : List Nat → kcpReadRes
  | [] => .readErr
  | t :: rest =>
    if t = kcpClose then .eof
    else if t = kcpDataPacket then
      if 4 ≤ rest.length then
        let n := be32val (rest.take 4)
        let body := rest.drop 4
        let m := min bufLen n
        if m ≤ body.length then .bytes (body.take m) (n - m) (body.drop m)
        else .readErr
      else .readErr
    else if t = kcpKeepAlive then kcpReadLoop bufLen rest
    else .readErr

/-- `kcpConnWrapper.Read` with a caller buffer of `bufLen` bytes, on a
wire stream with `left` bytes of the current frame still unread. -/
def kcpRead (bufLen : Nat) (wire : List Nat) (left : Nat) : kcpReadRes :=
  if left = 0 then kcpReadLoop bufLen wire
  else
    let m := min bufLen left
    if m ≤ wire.length then .bytes (wire.take m) (left - m) (wire.drop m)
    else .readErr

/-- `kcpConnWrapper.Write`: `none` is the oversize error, otherwise the
returned byte count (what `UDPSession.Write` reports for the whole
frame) together with the frame put on the wire. -/
def kcpWrite (b : List Nat) : Option (Nat × List Nat) :=
  if b.length > 4294967295 then none
  else
    let buf := (kcpDataPacket :: be32 b.length) ++ b
    some (buf.length, buf)

/-- `kcpConnWrapper.Close` sends a bare `kcpClose` byte. -/
def kcpCloseWire : List Nat := [kcpClose]

theorem be32val_be32 (n : Nat) (h : n < 4294967296) : be32val (be32 n) = n := by
  simp only [be32, be32val, Nat.shiftRight_eq_div_pow,
    List.getD_cons_zero, List.getD_cons_succ]
  omega

/-- C6: the KCP framing round-trips — for every byte string `b` of
length at most 2^32−1, `Write b` reports `len b + 5` bytes and puts one
DATA frame on the wire; a `Read` with a buffer of at least `len b` bytes
then recovers exactly `b` (leaving nothing of the frame unread), and a
`kcpClose` byte written by `Close` on one side surfaces as end-of-stream
to the other side. -/
theorem claim6_kcp_framing_roundtrip (b : List Nat) (hne : b ≠ [])
    (hlen : b.length ≤ 4294967295) (bufLen : Nat) (hbuf : b.length ≤ bufLen)
    (rest : List Nat) :
    ∃ w, kcpWrite b = some (b.length + 5, w) ∧
      kcpRead bufLen (w ++ rest) 0 = kcpReadRes.bytes b 0 rest ∧
      kcpRead bufLen (kcpCloseWire ++ rest) 0 = kcpReadRes.eof := by
  refine ⟨(kcpDataPacket :: be32 b.length) ++ b, ?_, ?_, rfl⟩
  · rw [kcpWrite, if_neg (by omega)]
    simp [be32]
  · rw [kcpRead, if_pos rfl]
    have hw : ((kcpDataPacket :: be32 b.length) ++ b) ++ rest =
        kcpDataPacket :: (be32 b.length ++ (b ++ rest)) := by
      simp
    rw [hw, kcpReadLoop]
    rw [if_neg (by decide), if_pos rfl]
    have hlen4 : (be32 b.length).length = 4 := rfl
    have htake : (be32 b.length ++ (b ++ rest)).take 4 = be32 b.length := by
      rw [← hlen4, List.take_left]
    have hdrop : (be32 b.length ++ (b ++ rest)).drop 4 = b ++ rest := by
      rw [← hlen4, List.drop_left]
    rw [if_pos (by simp [hlen4])]
    simp only [htake, hdrop, be32val_be32 b.length (by omega)]
    have hmin : min bufLen b.length = b.length := by omega
    rw [hmin, if_pos (by simp)]
    rw [List.take_left, List.drop_left, Nat.sub_self]

/-- Witness for C6: the round-trip theorem applied to the one-byte
string `[171]` with a one-byte read buffer. -/
theorem claim6_kcp_framing_roundtrip_witness :
    ([171] : List Nat) ≠ [] ∧
    ∃ w, kcpWrite [171] = some (6, w) ∧
      kcpRead 1 (w ++ []) 0 = kcpReadRes.bytes [171] 0 [] ∧
      kcpRead 1 (kcpCloseWire ++ []) 0 = kcpReadRes.eof :=
  ⟨by decide, claim6_kcp_framing_roundtrip [171] (by decide) (by decide) 1
    (by decide) []⟩

/-- C10: a successful `kcpConnWrapper.Write` of a byte string `b`
returns the byte count of the whole frame written to the underlying
session — `len b + 5` (type byte plus 4-byte length header plus
payload), not the `len b` of the usual `io.Writer` contract. -/
theorem claim10_write_count (b : List Nat) (hlen : b.length ≤ 4294967295) :
    (kcpWrite b).map Prod.fst = some (b.length + 5) := by
  rw [kcpWrite, if_neg (by omega)]
  simp [be32]

/-- Witness for C10: `Write [7, 8, 9]` reports 8 bytes written. -/
theorem claim10_write_count_witness :
    (kcpWrite [7, 8, 9]).map Prod.fst = some 8 :=
  claim10_write_count [7, 8, 9] (by decide)

/-! ## Claim C5: the SOCKS5 packet codecs (socks5.go 442-660)

The five wire packet kinds with their `WritePacket`/`ReadPacket`
methods.  Byte strings are `List Nat`; the reader consumes a prefix of
the stream and returns the packet plus the unconsumed rest; `none` is a
read/write error. -/

inductive socksAddr where
  | tcp4 (ip : List Nat) (port : Nat) : socksAddr
  | tcp6 (ip : List Nat) (port : Nat) : socksAddr
  | domain (name : List Nat) (port : Nat) : socksAddr
deriving DecidableEq, Repr

inductive socksPacket where
  | hello (methods : List Nat) : socksPacket
  | sel (method : Nat) : socksPacket
  | userPassReq (user pass : List Nat) : socksPacket
  | userPassResp (status : Bool) : socksPacket
  | reqResp (ty : Nat) (addr : socksAddr) : socksPacket
deriving DecidableEq, Repr

inductive socksKind where
  | hello | sel | userPassReq | userPassResp | reqResp
deriving DecidableEq, Repr

def kindOf : socksPacket → socksKind
  | .hello _ => .hello
  | .sel _ => .sel
  | .userPassReq _ _ => .userPassReq
  | .userPassResp _ => .userPassResp
  | .reqResp _ _ => .reqResp

/-- Go `byte(port>>8), byte(port)` (socksReqResp.WritePacket). -/
def portBytes (port : Nat) : List Nat := [(port >>> 8) % 256, port % 256]

/-- `getPortFromBytes` from socks5.go: `uint16(raw[0])<<8 | uint16(raw[1])`. -/
def getPortFromBytes (b : List Nat) : Nat :=
  ((b.getD 0 0) <<< 8) ||| b.getD 1 0

/-- The argument-range side conditions under which the Go writers do not
reject the packet (byte fields below 256, the length-prefixed strings
within one byte, a 4- resp. 16-byte IP). -/
def validPacket : socksPacket → Prop
  | .hello ms => 0 < ms.length ∧ ms.length ≤ 255 ∧ ∀ c ∈ ms, c < 256
  | .sel m => m < 256
  | .userPassReq u pw => 0 < u.length ∧ u.length ≤ 255 ∧
      0 < pw.length ∧ pw.length ≤ 255 ∧
      (∀ c ∈ u, c < 256) ∧ ∀ c ∈ pw, c < 256
  | .userPassResp _ => True
  | .reqResp ty addr => ty < 256 ∧
      match addr with
      | .tcp4 ip port => ip.length = 4 ∧ (∀ c ∈ ip, c < 256) ∧ port < 65536
      | .tcp6 ip port => ip.length = 16 ∧ (∀ c ∈ ip, c < 256) ∧ port < 65536
      | .domain nm port => nm.length ≤ 255 ∧ (∀ c ∈ nm, c < 256) ∧
          port < 65536

/-- `WritePacket` of the five kinds (socksVersion = 5; the Go `To4()`/
`To16()` nil checks become the length conditions). -/
def writePacket : socksPacket → Option (List Nat)
  | .hello ms =>
    if ms.length = 0 ∨ 255 < ms.length then none
    else some (5 :: ms.length :: ms)
  | .sel m => some [5, m]
  | .userPassReq u pw =>
    if u.length = 0 ∨ 255 < u.length then none
    else if pw.length = 0 ∨ 255 < pw.length then none
    else some (1 :: u.length :: (u ++ pw.length :: pw))
  | .userPassResp st => some [1, if st then 0 else 1]
  | .reqResp ty addr =>
    match addr with
    | .tcp4 ip port =>
      if ip.length = 4 then some ([5, ty, 0, 1] ++ (ip ++ portBytes port))
      else none
    | .tcp6 ip port =>
      if ip.length = 16 then some ([5, ty, 0, 4] ++ (ip ++ portBytes port))
      else none
    | .domain nm port =>
      if 255 < nm.length then none
      else some ([5, ty, 0, 3, nm.length] ++ (nm ++ portBytes port))

/-- `io.ReadFull` of `n` bytes from the modelled stream. -/
def readBytes (n : Nat) (s : List Nat) : Option (List Nat × List Nat) :=
  if n ≤ s.length then some (s.take n, s.drop n) else none

def readHello (s : List Nat) : Option (socksPacket × List Nat) :=
  (readBytes 2 s).bind (fun hr =>
    if hr.1.getD 0 0 = 5 ∨ hr.1.getD 0 0 = 4 then
      (readBytes (hr.1.getD 1 0) hr.2).bind (fun mr =>
        some (.hello mr.1, mr.2))
    else none)

def readSelect (s : List Nat) : Option (socksPacket × List Nat) :=
  (readBytes 2 s).bind (fun hr =>
    if hr.1.getD 0 0 = 5 ∨ hr.1.getD 0 0 = 4 then
      some (.sel (hr.1.getD 1 0), hr.2)
    else none)

def readUserPassReq (s : List Nat) : Option (socksPacket × List Nat) :=
  (readBytes 2 s).bind (fun hr =>
    if hr.1.getD 0 0 = 1 then
      (readBytes (hr.1.getD 1 0) hr.2).bind (fun ur =>
        (readBytes 1 ur.2).bind (fun lr =>
          (readBytes (lr.1.getD 0 0) lr.2).bind (fun pr =>
            some (.userPassReq ur.1 pr.1, pr.2))))
    else none)

def readUserPassResp (s : List Nat) : Option (socksPacket × List Nat) :=
  (readBytes 2 s).bind (fun hr =>
    if hr.1.getD 0 0 = 1 then
      some (.userPassResp (hr.1.getD 1 0 = 0), hr.2)
    else none)

def readReqResp (s : List Nat) : Option (socksPacket × List Nat) :=
  (readBytes 4 s).bind (fun hr =>
    if hr.1.getD 0 0 = 5 ∨ hr.1.getD 0 0 = 4 then
      let ty := hr.1.getD 1 0
      if hr.1.getD 3 0 = 1 then
        (readBytes 6 hr.2).bind (fun br =>
          some (.reqResp ty
            (.tcp4 (br.1.take 4) (getPortFromBytes (br.1.drop 4))), br.2))
      else if hr.1.getD 3 0 = 4 then
        (readBytes 18 hr.2).bind (fun br =>
          some (.reqResp ty
            (.tcp6 (br.1.take 16) (getPortFromBytes (br.1.drop 16))), br.2))
      else if hr.1.getD 3 0 = 3 then
        (readBytes 1 hr.2).bind (fun lr =>
          (readBytes (lr.1.getD 0 0 + 2) lr.2).bind (fun br =>
            some (.reqResp ty
              (.domain (br.1.take (lr.1.getD 0 0))
                (getPortFromBytes (br.1.drop (lr.1.getD 0 0)))), br.2)))
      else none
    else none)

/-- `ReadPacket` of the packet kind the caller expects. -/
def readPacket : socksKind → List Nat → Option (socksPacket × List Nat)
  | .hello, s => readHello s
  | .sel, s => readSelect s
  | .userPassReq, s => readUserPassReq s
  | .userPassResp, s => readUserPassResp s
  | .reqResp, s => readReqResp s

theorem readBytes_append (b rest : List Nat) (n : Nat) (h : b.length = n) :
    readBytes n (b ++ rest) = some (b, rest) := by
  subst h
  rw [readBytes, if_pos (by simp), List.take_left, List.drop_left]

theorem lor_shiftLeft_eq_add (a b k : Nat) (hb : b < 2 ^ k) :
    (a <<< k) ||| b = a * 2 ^ k + b := by
  apply Nat.eq_of_testBit_eq
  intro i
  rw [Nat.testBit_lor, Nat.testBit_shiftLeft]
  by_cases hik : k ≤ i
  · have hbf : b.testBit i = false :=
      Nat.testBit_lt_two_pow
        (lt_of_lt_of_le hb (Nat.pow_le_pow_right (by omega) hik))
    rw [hbf, Bool.or_false]
    simp only [hik, decide_True, Bool.true_and]
    rw [Nat.testBit_to_div_mod, Nat.testBit_to_div_mod]
    have hdiv : (a * 2 ^ k + b) / 2 ^ i = a / 2 ^ (i - k) := by
      have hsplit : (2 : Nat) ^ i = 2 ^ k * 2 ^ (i - k) := by
        rw [← pow_add]
        congr 1
        omega
      rw [hsplit, ← Nat.div_div_eq_div_mul, mul_comm a (2 ^ k),
        Nat.mul_add_div (Nat.pos_pow_of_pos k (by omega)),
        Nat.div_eq_of_lt hb, Nat.add_zero]
    rw [hdiv]
  · have hkl : i < k := by omega
    simp only [hik, decide_False, Bool.false_and, Bool.false_or]
    rw [Nat.testBit_to_div_mod, Nat.testBit_to_div_mod]
    have hsplit : a * 2 ^ k = (a * 2 ^ (k - i)) * 2 ^ i := by
      rw [mul_assoc, ← pow_add]
      congr 2
      omega
    rw [hsplit, mul_comm (a * 2 ^ (k - i)) (2 ^ i),
      Nat.mul_add_div (Nat.pos_pow_of_pos i (by omega))]
    have heven : (a * 2 ^ (k - i) + b / 2 ^ i) % 2 = (b / 2 ^ i) % 2 := by
      have h2 : a * 2 ^ (k - i) = 2 * (a * 2 ^ (k - i - 1)) := by
        rw [mul_comm 2 (a * 2 ^ (k - i - 1)), mul_assoc]
        congr 1
        rw [← pow_succ]
        congr 1
        omega
      rw [h2, Nat.mul_add_mod]
    rw [heven]

theorem getPort_portBytes (port : Nat) (h : port < 65536) :
    getPortFromBytes (portBytes port) = port := by
  rw [portBytes, getPortFromBytes]
  simp only [List.getD_cons_zero, List.getD_cons_succ]
  have h8 : port >>> 8 = port / 256 := by
    rw [Nat.shiftRight_eq_div_pow]
  have hm : (port >>> 8) % 256 = port / 256 := by
    rw [h8, Nat.mod_eq_of_lt (by omega)]
  rw [hm, lor_shiftLeft_eq_add _ _ 8 (by omega)]
  have hp : (2 : Nat) ^ 8 = 256 := by norm_num
  rw [hp]
  omega

/-- C5: every valid packet of the five SOCKS5 wire kinds round-trips —
writing the packet and reading the produced bytes (with any trailing
stream content) yields the original packet and leaves the trailing
content unconsumed. -/
theorem claim5_socks5_roundtrip (p : socksPacket) (hv : validPacket p)
    (w rest : List Nat) (hw : writePacket p = some w) :
    readPacket (kindOf p) (w ++ rest) = some (p, rest) := by
  cases p with
  | hello ms =>
    obtain ⟨h1, h2, _⟩ := hv
    rw [writePacket, if_neg (by omega)] at hw
    obtain rfl := Option.some_inj.mp hw
    show readHello _ = _
    have hassoc : (5 :: ms.length :: ms) ++ rest =
        [5, ms.length] ++ (ms ++ rest) := by simp
    rw [hassoc, readHello, readBytes_append [5, ms.length] (ms ++ rest) 2 rfl]
    simp only [Option.some_bind, List.getD_cons_zero, List.getD_cons_succ]
    rw [if_pos (Or.inl trivial), readBytes_append ms rest ms.length rfl]
    simp only [Option.some_bind]
  | sel m =>
    rw [writePacket] at hw
    obtain rfl := Option.some_inj.mp hw
    show readSelect (([5, m] : List Nat) ++ rest) = _
    rw [readSelect, readBytes_append [5, m] rest 2 rfl]
    simp only [Option.some_bind, List.getD_cons_zero, List.getD_cons_succ]
    rw [if_pos (Or.inl trivial)]
  | userPassReq u pw =>
    obtain ⟨h1, h2, h3, h4, _, _⟩ := hv
    rw [writePacket, if_neg (by omega), if_neg (by omega)] at hw
    obtain rfl := Option.some_inj.mp hw
    show readUserPassReq _ = _
    have hassoc : (1 :: u.length :: (u ++ pw.length :: pw)) ++ rest =
        [1, u.length] ++ (u ++ ([pw.length] ++ (pw ++ rest))) := by simp
    rw [hassoc, readUserPassReq,
      readBytes_append [1, u.length] (u ++ ([pw.length] ++ (pw ++ rest))) 2 rfl]
    simp only [Option.some_bind, List.getD_cons_zero, List.getD_cons_succ]
    rw [if_pos trivial,
      readBytes_append u ([pw.length] ++ (pw ++ rest)) u.length rfl]
    simp only [Option.some_bind]
    rw [readBytes_append [pw.length] (pw ++ rest) 1 rfl]
    simp only [Option.some_bind, List.getD_cons_zero]
    rw [readBytes_append pw rest pw.length rfl]
    simp only [Option.some_bind]
  | userPassResp st =>
    rw [writePacket] at hw
    obtain rfl := Option.some_inj.mp hw
    show readUserPassResp _ = _
    cases st with
    | true =>
      show readUserPassResp ([1, 0] ++ rest) =
        some (socksPacket.userPassResp true, rest)
      rw [readUserPassResp, readBytes_append [1, 0] rest 2 rfl]
      simp only [Option.some_bind, List.getD_cons_zero, List.getD_cons_succ]
      rw [if_pos trivial]
      simp
    | false =>
      show readUserPassResp ([1, 1] ++ rest) =
        some (socksPacket.userPassResp false, rest)
      rw [readUserPassResp, readBytes_append [1, 1] rest 2 rfl]
      simp only [Option.some_bind, List.getD_cons_zero, List.getD_cons_succ]
      rw [if_pos trivial]
      simp
  | reqResp ty addr =>
    obtain ⟨hty, hva⟩ := hv
    cases addr with
    | tcp4 ip port =>
      obtain ⟨hip, _, hport⟩ := hva
      rw [writePacket] at hw
      rw [if_pos hip] at hw
      obtain rfl := Option.some_inj.mp hw
      show readReqResp _ = _
      have hassoc : ([5, ty, 0, 1] ++ (ip ++ portBytes port)) ++ rest =
          [5, ty, 0, 1] ++ ((ip ++ portBytes port) ++ rest) := by simp
      have hlen : (ip ++ portBytes port).length = 6 := by
        simp [portBytes, hip]
      rw [hassoc, readReqResp,
        readBytes_append [5, ty, 0, 1] ((ip ++ portBytes port) ++ rest) 4 rfl]
      simp only [Option.some_bind, List.getD_cons_zero, List.getD_cons_succ]
      rw [if_pos (Or.inl trivial), if_pos trivial,
        readBytes_append (ip ++ portBytes port) rest 6 hlen]
      simp only [Option.some_bind, List.take_left' hip, List.drop_left' hip,
        getPort_portBytes port hport]
    | tcp6 ip port =>
      obtain ⟨hip, _, hport⟩ := hva
      rw [writePacket] at hw
      rw [if_pos hip] at hw
      obtain rfl := Option.some_inj.mp hw
      show readReqResp _ = _
      have hassoc : ([5, ty, 0, 4] ++ (ip ++ portBytes port)) ++ rest =
          [5, ty, 0, 4] ++ ((ip ++ portBytes port) ++ rest) := by simp
      have hlen : (ip ++ portBytes port).length = 18 := by
        simp [portBytes, hip]
      rw [hassoc, readReqResp,
        readBytes_append [5, ty, 0, 4] ((ip ++ portBytes port) ++ rest) 4 rfl]
      simp only [Option.some_bind, List.getD_cons_zero, List.getD_cons_succ]
      rw [if_pos (Or.inl trivial), if_neg (by omega : ¬(4 : Nat) = 1),
        if_pos trivial,
        readBytes_append (ip ++ portBytes port) rest 18 hlen]
      simp only [Option.some_bind, List.take_left' hip, List.drop_left' hip,
        getPort_portBytes port hport]
    | domain nm port =>
      obtain ⟨hnm, _, hport⟩ := hva
      rw [writePacket] at hw
      rw [if_neg (by omega)] at hw
      obtain rfl := Option.some_inj.mp hw
      show readReqResp _ = _
      have hassoc : ([5, ty, 0, 3, nm.length] ++ (nm ++ portBytes port)) ++
          rest =
          [5, ty, 0, 3] ++
            ([nm.length] ++ ((nm ++ portBytes port) ++ rest)) := by
        simp
      have hlen : (nm ++ portBytes port).length = nm.length + 2 := by
        simp [portBytes]
      have htk : (nm ++ portBytes port).take nm.length = nm :=
        List.take_left' rfl
      have hdr : (nm ++ portBytes port).drop nm.length = portBytes port :=
        List.drop_left' rfl
      rw [hassoc, readReqResp,
        readBytes_append [5, ty, 0, 3]
          ([nm.length] ++ ((nm ++ portBytes port) ++ rest)) 4 rfl]
      simp only [Option.some_bind, List.getD_cons_zero, List.getD_cons_succ]
      rw [if_pos (Or.inl trivial), if_neg (by omega : ¬(3 : Nat) = 1),
        if_neg (by omega : ¬(3 : Nat) = 4), if_pos trivial,
        readBytes_append [nm.length] ((nm ++ portBytes port) ++ rest) 1 rfl]
      simp only [Option.some_bind, List.getD_cons_zero]
      rw [readBytes_append (nm ++ portBytes port) rest (nm.length + 2) hlen]
      simp only [Option.some_bind, htk, hdr, getPort_portBytes port hport]

/-- Witness for C5: the round-trip theorem applied to the Hello packet
with the single method 0 (no authentication). -/
theorem claim5_socks5_roundtrip_witness :
    validPacket (socksPacket.hello [0]) ∧
    writePacket (socksPacket.hello [0]) = some [5, 1, 0] ∧
    readPacket socksKind.hello ([5, 1, 0] ++ [9]) =
      some (socksPacket.hello [0], [9]) := by
  have hv : validPacket (socksPacket.hello [0]) := by
    refine ⟨by simp, by simp, ?_⟩
    intro c hc
    simp only [List.mem_singleton] at hc
    omega
  exact ⟨hv, rfl, claim5_socks5_roundtrip (socksPacket.hello [0]) hv
    [5, 1, 0] [9] rfl⟩

/-! ## Claim C8: the rule matcher precedence (part_001 117-139)

`MatchDomain` and `MatchIP` are the same three-way branch over their
respective matchers: explicit match, else the `"default"` rule if one
exists, else `("", nil)`.  The Go map `ruleToUpstreams` becomes an
association list; a missing key reads as the zero value `[]` with
`ok = false`. -/

/-- Go `m.ruleToUpstreams[name]` with its `ok` flag. -/
def lookupRule (rtu : List (String × List String)) (name : String) :
    Option (List String) :=
  (rtu.find? (fun p => p.1 = name)).map Prod.snd

/-- The shared branch structure of `MatchDomain`/`MatchIP`, applied to
the `(rule, matched)` answer of the underlying matcher. -/
def ruleMatchResult (rm : String × Bool)
    (rtu : List (String × List String)) : String × List String :=
  if rm.2 then (rm.1, (lookupRule rtu rm.1).getD [])
  else
    match lookupRule rtu "default" with
    | some ups => ("default", ups)
    | none => ("", [])

/-- `ipMatcher.Match` of part_001: the trie payload as `(rule, ok)`. -/
def ipMatcherMatch (m : brtNode String) (ip16 : List Nat) : String × Bool :=
  match ipMatch m ip16 with
  | some r => (r, true)
  | none => ("", false)

/-- `RuleMatcher.MatchDomain`, with the regex-based domain matcher kept
abstract as a function `dm`. -/
def MatchDomain (dm : String → String × Bool)
    (rtu : List (String × List String)) (domain : String) :
    String × List String :=
  ruleMatchResult (dm domain) rtu

/-- `RuleMatcher.MatchIP` over the binary-radix-trie IP matcher. -/
def MatchIP (m : brtNode String) (rtu : List (String × List String))
    (ip16 : List Nat) : String × List String :=
  ruleMatchResult (ipMatcherMatch m ip16) rtu

/-- C8: the rule matcher decides exactly in the claimed precedence —
an explicit matcher hit returns that rule with its upstream list, an
unmatched address falls to the `"default"` rule when one exists, and to
`("", [])` otherwise; `MatchDomain` and `MatchIP` are both instances of
this branch over their matchers. -/
theorem claim8_match_precedence (rm : String × Bool)
    (rtu : List (String × List String)) :
    (rm.2 = true →
      ruleMatchResult rm rtu = (rm.1, (lookupRule rtu rm.1).getD [])) ∧
    (rm.2 = false → ∀ ups, lookupRule rtu "default" = some ups →
      ruleMatchResult rm rtu = ("default", ups)) ∧
    (rm.2 = false → lookupRule rtu "default" = none →
      ruleMatchResult rm rtu = ("", [])) ∧
    (∀ dm domain, MatchDomain dm rtu domain = ruleMatchResult (dm domain) rtu) ∧
    (∀ m ip16, MatchIP m rtu ip16 = ruleMatchResult (ipMatcherMatch m ip16) rtu) := by
  refine ⟨?_, ?_, ?_, fun _ _ => rfl, fun _ _ => rfl⟩
  · intro h
    rw [ruleMatchResult, if_pos h]
  · intro h ups hups
    rw [ruleMatchResult, if_neg (by rw [h]; exact Bool.false_ne_true), hups]
  · intro h hnone
    rw [ruleMatchResult, if_neg (by rw [h]; exact Bool.false_ne_true), hnone]

/-- Witness for C8: an unmatched address (`matched = false`) with a rule
set holding a `"default"` rule falls to that rule and its upstreams. -/
theorem claim8_match_precedence_witness :
    ruleMatchResult ("r1", false) [("default", ["u1"])] =
      ("default", ["u1"]) :=
  (claim8_match_precedence ("r1", false) [("default", ["u1"])]).2.1
    rfl ["u1"] rfl

/-! ## Claim C9: the pre-connect pool (lib/pre_conn.go)

`preConnMgr` keeps a ring buffer `pool` of `capacity + 1` slots with
cursors `poolBegin`/`poolNext`; `Dial` and `Epoch` pop from the front,
`runPreConn` (serialised by `preConnMtx`) snapshots the size and pushes
at most `expectedPoolSize - size` fresh connections at the back, and
panics when asked for more than `poolCap`.  Connections are modelled by
the `Nat` identity `nextId` hands out; `handed` collects what `Dial`
returned from the pool.  The interleavings of these operations form a
small-step transition system. -/

structure PoolState where
  cap : Nat
  slots : List (Option Nat)
  pbegin : Nat
  pnext : Nat
  running : Option Nat
  handed : List Nat
  nextId : Nat
deriving DecidableEq, Repr

/-- `poolSizeUnsafe`: `size := next - begin; if size < 0 { size +=
cap(pool) }` over the `cap + 1` ring slots. -/
def ringSize (cap b n : Nat) : Nat :=
  if b ≤ n then n - b else n + (cap + 1) - b

def poolSizeUnsafe (s : PoolState) : Nat := ringSize s.cap s.pbegin s.pnext

/-- The connections currently held by pool slots. -/
def poolIds (s : PoolState) : List Nat := s.slots.filterMap id

/-- A fresh `preConnMgr` (`newPreConnMgr`): `capacity + 1` nil slots,
both cursors at 0. -/
def PoolInit (cap : Nat) : PoolState :=
  ⟨cap, List.replicate (cap + 1) none, 0, 0, none, [], 0⟩

/-- One scheduler step of the pool: a `Dial` pop, an `Epoch` expiry pop,
entry of a `runPreConn(e)` into its critical section (taking the size
snapshot; `e ≤ poolCap`, larger arguments panic), one push of its loop,
or its exit (loop done or a dial error `break`). -/
inductive PoolStep : PoolState → PoolState → Prop where
  | dialPop (s : PoolState) (c : Nat)
      (hne : s.pbegin ≠ s.pnext)
      (hc : s.slots.getD s.pbegin none = some c) :
      PoolStep s { s with
        slots := s.slots.set s.pbegin none,
        pbegin := (s.pbegin + 1) % (s.cap + 1),
        handed := c :: s.handed }
  | epochPop (s : PoolState) (c : Nat)
      (hne : s.pbegin ≠ s.pnext)
      (hc : s.slots.getD s.pbegin none = some c) :
      PoolStep s { s with
        slots := s.slots.set s.pbegin none,
        pbegin := (s.pbegin + 1) % (s.cap + 1) }
  | runStart (s : PoolState) (e : Nat)
      (hrun : s.running = none) (he : e ≤ s.cap) :
      PoolStep s { s with running := some (e - poolSizeUnsafe s) }
  | runPush (s : PoolState) (k : Nat)
      (hrun : s.running = some (k + 1)) :
      PoolStep s { s with
        slots := s.slots.set s.pnext (some s.nextId),
        pnext := (s.pnext + 1) % (s.cap + 1),
        nextId := s.nextId + 1,
        running := some k }
  | runStop (s : PoolState) (k : Nat)
      (hrun : s.running = some k) :
      PoolStep s { s with running := none }

/-- The pool invariant: cursors in range, the size within `poolCap`, an
active `runPreConn` never pushing past `poolCap`, every pooled or
handed-out connection unique, and all of them below the fresh-id
counter. -/
def PoolInv (s : PoolState) : Prop :=
  s.slots.length = s.cap + 1 ∧
  s.pbegin < s.cap + 1 ∧
  s.pnext < s.cap + 1 ∧
  (∀ k, s.running = some k → k + poolSizeUnsafe s ≤ s.cap) ∧
  (poolIds s ++ s.handed).Nodup ∧
  (∀ c ∈ poolIds s ++ s.handed, c < s.nextId)

theorem ringSize_le (cap b n : Nat) (hb : b < cap + 1) (hn : n < cap + 1) :
    ringSize cap b n ≤ cap := by
  rw [ringSize]
  split_ifs <;> omega

theorem mod_succ_eq (cap x : Nat) (hx : x < cap + 1) :
    (x + 1) % (cap + 1) = if x = cap then 0 else x + 1 := by
  by_cases hc : x = cap
  · rw [if_pos hc, hc, Nat.mod_self]
  · rw [if_neg hc, Nat.mod_eq_of_lt (by omega)]

theorem ringSize_pop (cap b n : Nat) (hb : b < cap + 1) (hn : n < cap + 1)
    (hne : b ≠ n) :
    ringSize cap ((b + 1) % (cap + 1)) n = ringSize cap b n - 1 ∧
    0 < ringSize cap b n ∧ (b + 1) % (cap + 1) < cap + 1 := by
  rw [mod_succ_eq cap b hb]
  simp only [ringSize]
  split_ifs <;> omega

theorem ringSize_push (cap b n : Nat) (hb : b < cap + 1) (hn : n < cap + 1)
    (hlt : ringSize cap b n < cap) :
    ringSize cap b ((n + 1) % (cap + 1)) = ringSize cap b n + 1 ∧
    (n + 1) % (cap + 1) < cap + 1 := by
  rw [mod_succ_eq cap n hn]
  simp only [ringSize] at hlt ⊢
  split_ifs at hlt ⊢ <;> omega

theorem filterMap_getD_some (l : List (Option Nat)) :
    ∀ (i c : Nat), l.getD i none = some c →
      (l.filterMap id).Perm (c :: (l.set i none).filterMap id) := by
  induction l with
  | nil => intro i c h; simp [List.getD] at h
  | cons x r ih =>
    intro i c h
    cases i with
    | zero =>
      rw [List.getD_cons_zero] at h
      subst h
      simp [List.filterMap_cons]
    | succ j =>
      rw [List.getD_cons_succ] at h
      rw [List.set_cons_succ]
      cases x with
      | none =>
        show (List.filterMap id r).Perm
          (c :: List.filterMap id (r.set j none))
        exact ih j c h
      | some v =>
        show (v :: List.filterMap id r).Perm
          (c :: v :: List.filterMap id (r.set j none))
        exact ((ih j c h).cons v).trans (List.Perm.swap c v _)

theorem filterMap_set_some (l : List (Option Nat)) :
    ∀ (i d : Nat), i < l.length →
      ((l.set i (some d)).filterMap id).Perm
        (d :: (l.set i none).filterMap id) := by
  induction l with
  | nil => intro i d h; simp at h
  | cons x r ih =>
    intro i d h
    cases i with
    | zero =>
      show (d :: List.filterMap id r).Perm (d :: List.filterMap id r)
      exact List.Perm.refl _
    | succ j =>
      rw [List.set_cons_succ, List.set_cons_succ]
      cases x with
      | none =>
        show ((r.set j (some d)).filterMap id).Perm
          (d :: List.filterMap id (r.set j none))
        exact ih j d (by simpa using h)
      | some v =>
        show (v :: (r.set j (some d)).filterMap id).Perm
          (d :: v :: List.filterMap id (r.set j none))
        exact ((ih j d (by simpa using h)).cons v).trans (List.Perm.swap d v _)

theorem set_none_of_getD_none (l : List (Option Nat)) :
    ∀ (i : Nat), l.getD i none = none → l.set i none = l := by
  induction l with
  | nil => intro i _; rfl
  | cons x r ih =>
    intro i h
    cases i with
    | zero =>
      rw [List.getD_cons_zero] at h
      rw [List.set_cons_zero, h]
    | succ j =>
      rw [List.getD_cons_succ] at h
      rw [List.set_cons_succ, ih j h]

theorem filterMap_id_replicate_none (k : Nat) :
    (List.replicate k (none : Option Nat)).filterMap id = [] := by
  induction k with
  | zero => rfl
  | succ n ih =>
    rw [List.replicate_succ]
    show (List.replicate n (none : Option Nat)).filterMap id = []
    exact ih

theorem PoolInv_init (cap : Nat) : PoolInv (PoolInit cap) := by
  refine ⟨by simp [PoolInit], by simp [PoolInit], by simp [PoolInit],
    ?_, ?_, ?_⟩
  · intro k hk
    simp [PoolInit] at hk
  · show ((List.replicate (cap + 1) (none : Option Nat)).filterMap id ++
      []).Nodup
    rw [filterMap_id_replicate_none]
    exact List.nodup_nil
  · intro c hc
    have hc2 : c ∈ (List.replicate (cap + 1) (none : Option Nat)).filterMap
        id ++ ([] : List Nat) := hc
    rw [filterMap_id_replicate_none] at hc2
    simp at hc2

/-- Every pool step preserves the invariant. -/
theorem PoolStep_inv {s t : PoolState} (hs : PoolInv s) (hst : PoolStep s t) :
    PoolInv t := by
  obtain ⟨hlen, hb, hn, hquota, hnodup, hbound⟩ := hs
  cases hst with
  | dialPop c hne hc =>
    have hpop := ringSize_pop s.cap s.pbegin s.pnext hb hn hne
    have hcperm := filterMap_getD_some s.slots s.pbegin c hc
    have hperm1 : (poolIds s ++ s.handed).Perm
        (c :: ((s.slots.set s.pbegin none).filterMap id ++ s.handed)) :=
      hcperm.append_right s.handed
    have h1 : (c :: ((s.slots.set s.pbegin none).filterMap id ++
        s.handed)).Nodup := hperm1.nodup hnodup
    refine ⟨by simp [hlen], hpop.2.2, hn, ?_, ?_, ?_⟩
    · intro k hk
      have hq2 : k + ringSize s.cap s.pbegin s.pnext ≤ s.cap := hquota k hk
      show k + ringSize s.cap ((s.pbegin + 1) % (s.cap + 1)) s.pnext ≤ s.cap
      rw [hpop.1]
      omega
    · show ((s.slots.set s.pbegin none).filterMap id ++
        (c :: s.handed)).Nodup
      exact (List.perm_middle.symm).nodup h1
    · intro c2 hc2
      show c2 < s.nextId
      have hc2b : c2 ∈ c :: ((s.slots.set s.pbegin none).filterMap id ++
          s.handed) := List.perm_middle.subset hc2
      exact hbound c2 (hperm1.symm.subset hc2b)
  | epochPop c hne hc =>
    have hpop := ringSize_pop s.cap s.pbegin s.pnext hb hn hne
    have hcperm := filterMap_getD_some s.slots s.pbegin c hc
    have hperm1 : (poolIds s ++ s.handed).Perm
        (c :: ((s.slots.set s.pbegin none).filterMap id ++ s.handed)) :=
      hcperm.append_right s.handed
    have h1 : (c :: ((s.slots.set s.pbegin none).filterMap id ++
        s.handed)).Nodup := hperm1.nodup hnodup
    refine ⟨by simp [hlen], hpop.2.2, hn, ?_, ?_, ?_⟩
    · intro k hk
      have hq2 : k + ringSize s.cap s.pbegin s.pnext ≤ s.cap := hquota k hk
      show k + ringSize s.cap ((s.pbegin + 1) % (s.cap + 1)) s.pnext ≤ s.cap
      rw [hpop.1]
      omega
    · exact (List.nodup_cons.mp h1).2
    · intro c2 hc2
      show c2 < s.nextId
      exact hbound c2 (hperm1.symm.subset (List.mem_cons_of_mem c hc2))
  | runStart e hrun he =>
    have hle := ringSize_le s.cap s.pbegin s.pnext hb hn
    refine ⟨hlen, hb, hn, ?_, hnodup, hbound⟩
    intro k hk
    have hk2 : e - poolSizeUnsafe s = k := Option.some_inj.mp hk
    have hle2 : poolSizeUnsafe s ≤ s.cap := hle
    show k + poolSizeUnsafe s ≤ s.cap
    omega
  | runPush k hrun =>
    have hszlt : poolSizeUnsafe s < s.cap := by
      have := hquota (k + 1) hrun
      omega
    have hpush := ringSize_push s.cap s.pbegin s.pnext hb hn hszlt
    have hsetperm := filterMap_set_some s.slots s.pnext s.nextId
      (by rw [hlen]; exact hn)
    -- relate the cleared pool to the current one
    have hsub : ∀ P : Prop,
        (((s.slots.set s.pnext none).filterMap id ++ s.handed).Nodup →
         (∀ c2 ∈ (s.slots.set s.pnext none).filterMap id ++ s.handed,
            c2 < s.nextId) → P) → P := by
      intro P hP
      cases h0 : s.slots.getD s.pnext none with
      | none =>
        rw [set_none_of_getD_none s.slots s.pnext h0] at hP
        exact hP hnodup hbound
      | some c0 =>
        have hcperm := filterMap_getD_some s.slots s.pnext c0 h0
        have hperm1 : (poolIds s ++ s.handed).Perm
            (c0 :: ((s.slots.set s.pnext none).filterMap id ++ s.handed)) :=
          hcperm.append_right s.handed
        have h1 := hperm1.nodup hnodup
        refine hP (List.nodup_cons.mp h1).2 ?_
        intro c2 hc2
        exact hbound c2 (hperm1.symm.subset (List.mem_cons_of_mem c0 hc2))
    refine hsub _ (fun hnodup2 hbound2 => ?_)
    have hnewperm : ((s.slots.set s.pnext (some s.nextId)).filterMap id ++
        s.handed).Perm
        (s.nextId :: ((s.slots.set s.pnext none).filterMap id ++ s.handed)) :=
      hsetperm.append_right s.handed
    refine ⟨by simp [hlen], hb, hpush.2, ?_, ?_, ?_⟩
    · intro k2 hk2
      have hk3 : k = k2 := Option.some_inj.mp hk2
      have hq2 : k + 1 + ringSize s.cap s.pbegin s.pnext ≤ s.cap :=
        hquota (k + 1) hrun
      show k2 + ringSize s.cap s.pbegin ((s.pnext + 1) % (s.cap + 1)) ≤ s.cap
      rw [hpush.1]
      omega
    · refine hnewperm.symm.nodup (List.nodup_cons.mpr ⟨?_, hnodup2⟩)
      intro hmem
      exact absurd (hbound2 s.nextId hmem) (by omega)
    · intro c2 hc2
      show c2 < s.nextId + 1
      rcases List.mem_cons.mp (hnewperm.subset hc2) with rfl | hc3
      · omega
      · have := hbound2 c2 hc3
        omega
  | runStop k hrun =>
    refine ⟨hlen, hb, hn, ?_, hnodup, hbound⟩
    intro k2 hk2
    simp at hk2

/-- C9: pre-connect pool safety — in every state reachable from a fresh
pool of capacity `cap` by any interleaving of `Dial` pops, `Epoch` pops
and `runPreConn` sections, the pool size never exceeds `cap`, an active
`runPreConn` can never push the size past `cap`, and no two `Dial`
calls have been handed the same pooled connection. -/
theorem claim9_pool_invariants (cap : Nat) (s : PoolState)
    (h : Relation.ReflTransGen PoolStep (PoolInit cap) s) :
    poolSizeUnsafe s ≤ s.cap ∧
    (∀ k, s.running = some k → k + poolSizeUnsafe s ≤ s.cap) ∧
    s.handed.Nodup := by
  have hinv : PoolInv s := by
    induction h with
    | refl => exact PoolInv_init cap
    | tail hsteps hstep ih => exact PoolStep_inv ih hstep
  obtain ⟨hlen, hb, hn, hquota, hnodup, _⟩ := hinv
  refine ⟨ringSize_le s.cap s.pbegin s.pnext hb hn, hquota, ?_⟩
  exact (List.Nodup.of_append_right hnodup)

def c9s1 : PoolState := ⟨2, [none, none, none], 0, 0, some 2, [], 0⟩

def c9s2 : PoolState := ⟨2, [some 0, none, none], 0, 1, some 1, [], 1⟩

def c9s3 : PoolState := ⟨2, [some 0, some 1, none], 0, 2, some 0, [], 2⟩

def c9s4 : PoolState := ⟨2, [some 0, some 1, none], 0, 2, none, [], 2⟩

def c9s5 : PoolState := ⟨2, [none, some 1, none], 1, 2, none, [0], 2⟩

def c9s6 : PoolState := ⟨2, [none, none, none], 2, 2, none, [1, 0], 2⟩

/-- Witness for C9: a concrete run on a capacity-2 pool — a full
`runPreConn(2)` refill followed by two `Dial` pops — reaches a state
with two distinct handed-out connections and an empty in-bound pool. -/
theorem claim9_pool_invariants_witness :
    poolSizeUnsafe c9s6 ≤ c9s6.cap ∧
    (∀ k, c9s6.running = some k → k + poolSizeUnsafe c9s6 ≤ c9s6.cap) ∧
    c9s6.handed.Nodup := by
  have h1 : PoolStep (PoolInit 2) c9s1 :=
    PoolStep.runStart (PoolInit 2) 2 rfl (by decide)
  have h2 : PoolStep c9s1 c9s2 := PoolStep.runPush c9s1 1 rfl
  have h3 : PoolStep c9s2 c9s3 := PoolStep.runPush c9s2 0 rfl
  have h4 : PoolStep c9s3 c9s4 := PoolStep.runStop c9s3 0 rfl
  have h5 : PoolStep c9s4 c9s5 := PoolStep.dialPop c9s4 0 (by decide) rfl
  have h6 : PoolStep c9s5 c9s6 := PoolStep.dialPop c9s5 1 (by decide) rfl
  exact claim9_pool_invariants 2 c9s6
    (((((((Relation.ReflTransGen.refl).tail h1).tail h2).tail h3).tail
      h4).tail h5).tail h6)

/-! ## Claim C2: the relay engine (app.go / part_000 `doRelay`)

`doRelay` starts one `relay` goroutine per direction; each runs
`relayHalf` (a graceful EOF of the source surfaces as a nil error) and
then — via `defer cancelFunc()` — cancels the shared `relayCtx` however
it ended.  The main goroutine blocks on `<-relayCtx.Done()` and then
closes BOTH streams.  States: `pumpA`/`pumpB` count the chunks each
direction still has to transfer, `aDone`/`bDone` mark a returned
`relayHalf`, `cancelled` the context, `closed` the two `Close` calls. -/

structure RelayState where
  pumpA : Nat
  pumpB : Nat
  aDone : Bool
  bDone : Bool
  cancelled : Bool
  closed : Bool
deriving DecidableEq, Repr

def RelayInit (a b : Nat) : RelayState := ⟨a, b, false, false, false, false⟩

/-- The events of `doRelay`: a pump copies one chunk (possible only
while its streams are open), a pump hits the end of its source — the
graceful EOF, `err = nil` in `relayHalf` — and its deferred
`cancelFunc()` fires, or the main goroutine wakes from
`<-relayCtx.Done()` and closes both streams. -/
inductive RelayStep : RelayState → RelayState → Prop where
  | moveA (s : RelayState) (hc : s.closed = false) (ha : s.aDone = false)
      (hp : 0 < s.pumpA) :
      RelayStep s { s with pumpA := s.pumpA - 1 }
  | eofA (s : RelayState) (ha : s.aDone = false) (hp : s.pumpA = 0) :
      RelayStep s { s with aDone := true, cancelled := true }
  | moveB (s : RelayState) (hc : s.closed = false) (hb : s.bDone = false)
      (hp : 0 < s.pumpB) :
      RelayStep s { s with pumpB := s.pumpB - 1 }
  | eofB (s : RelayState) (hb : s.bDone = false) (hp : s.pumpB = 0) :
      RelayStep s { s with bDone := true, cancelled := true }
  | mainClose (s : RelayState) (hcl : s.cancelled = true)
      (ho : s.closed = false) :
      RelayStep s { s with closed := true }

def RelayInv (s : RelayState) : Prop :=
  (s.closed = true → s.cancelled = true) ∧
  (s.cancelled = true → s.aDone = true ∨ s.bDone = true) ∧
  (s.aDone = true → s.pumpA = 0) ∧
  (s.bDone = true → s.pumpB = 0)

theorem RelayStep_inv {s t : RelayState} (hs : RelayInv s)
    (hst : RelayStep s t) : RelayInv t := by
  obtain ⟨h1, h2, h3, h4⟩ := hs
  cases hst with
  | moveA hc ha hp =>
    exact ⟨h1, h2,
      fun h => absurd (show s.aDone = true from h) (by rw [ha]; simp), h4⟩
  | eofA ha hp =>
    exact ⟨fun _ => rfl, fun _ => Or.inl rfl, fun _ => hp, h4⟩
  | moveB hc hb hp =>
    exact ⟨h1, h2, h3,
      fun h => absurd (show s.bDone = true from h) (by rw [hb]; simp)⟩
  | eofB hb hp =>
    exact ⟨fun _ => rfl, fun _ => Or.inr rfl, h3, fun _ => hp⟩
  | mainClose hcl ho =>
    exact ⟨fun _ => hcl, h2, h3, h4⟩

/-- C2 (amended): in `doRelay`, both streams are closed only after the
relay context was cancelled, and the context is cancelled only by a
pump that has finished — in particular a single graceful EOF suffices:
the first pump to end (having drained its source) cancels the context,
whereupon the main goroutine closes BOTH streams, without waiting for
the opposite direction (the unamended claim — that the other stream is
not closed by that event alone — is refuted by
`claim2_counterexample`). -/
theorem claim2_relay_close_after_eof (a b : Nat) (s : RelayState)
    (h : Relation.ReflTransGen RelayStep (RelayInit a b) s) :
    (s.closed = true → s.cancelled = true) ∧
    (s.cancelled = true → s.aDone = true ∨ s.bDone = true) ∧
    (s.aDone = true → s.pumpA = 0) ∧
    (s.bDone = true → s.pumpB = 0) := by
  induction h with
  | refl => exact ⟨by simp [RelayInit], by simp [RelayInit],
      by simp [RelayInit], by simp [RelayInit]⟩
  | tail hsteps hstep ih => exact RelayStep_inv ih hstep

/-- C2, counterexample to the unamended claim: downstream→upstream hits
a graceful EOF while the opposite direction still has 5 chunks to
transfer; the EOF cancels the relay context and the main goroutine
closes both streams.  The reached state has both streams closed with
the other pump unfinished, and no further step — in particular no
further transfer of the remaining 5 chunks — is possible. -/
theorem claim2_counterexample :
    ∃ s : RelayState, Relation.ReflTransGen RelayStep (RelayInit 0 5) s ∧
      s.closed = true ∧ s.bDone = false ∧ 0 < s.pumpB ∧
      ∀ t, ¬ RelayStep s t := by
  refine ⟨⟨0, 5, true, false, true, true⟩, ?_, rfl, rfl, by decide, ?_⟩
  · have h1 : RelayStep (RelayInit 0 5) ⟨0, 5, true, false, true, false⟩ :=
      RelayStep.eofA (RelayInit 0 5) rfl rfl
    have h2 : RelayStep (⟨0, 5, true, false, true, false⟩ : RelayState)
        ⟨0, 5, true, false, true, true⟩ :=
      RelayStep.mainClose ⟨0, 5, true, false, true, false⟩ rfl rfl
    exact ((Relation.ReflTransGen.refl).tail h1).tail h2
  · intro t ht
    cases ht with
    | moveA hc ha hp => exact absurd hc (by simp)
    | eofA ha hp => exact absurd ha (by simp)
    | moveB hc hb hp => exact absurd hc (by simp)
    | eofB hb hp => exact absurd hp (by simp)
    | mainClose hcl ho => exact absurd ho (by simp)

/-- Witness for C2: the amended theorem applied to the concrete
two-step run of `claim2_counterexample` — after the EOF and the close,
the state indeed has `cancelled` and a finished pump. -/
theorem claim2_relay_close_after_eof_witness :
    ((⟨0, 5, true, false, true, true⟩ : RelayState).closed = true →
      (⟨0, 5, true, false, true, true⟩ : RelayState).cancelled = true) ∧
    ((⟨0, 5, true, false, true, true⟩ : RelayState).cancelled = true →
      (⟨0, 5, true, false, true, true⟩ : RelayState).aDone = true ∨
      (⟨0, 5, true, false, true, true⟩ : RelayState).bDone = true) ∧
    ((⟨0, 5, true, false, true, true⟩ : RelayState).aDone = true →
      (⟨0, 5, true, false, true, true⟩ : RelayState).pumpA = 0) ∧
    ((⟨0, 5, true, false, true, true⟩ : RelayState).bDone = true →
      (⟨0, 5, true, false, true, true⟩ : RelayState).pumpB = 0) := by
  have h1 : RelayStep (RelayInit 0 5) ⟨0, 5, true, false, true, false⟩ :=
    RelayStep.eofA (RelayInit 0 5) rfl rfl
  have h2 : RelayStep (⟨0, 5, true, false, true, false⟩ : RelayState)
      ⟨0, 5, true, false, true, true⟩ :=
    RelayStep.mainClose ⟨0, 5, true, false, true, false⟩ rfl rfl
  exact claim2_relay_close_after_eof 0 5 ⟨0, 5, true, false, true, true⟩
    (((Relation.ReflTransGen.refl).tail h1).tail h2)

end Thestral
